import Mathlib

/-!
Shallow embedding of the amplitude-name taxonomy parser and aggregation
engine of `scripts/extract_fit_results.cc`, together with proofs of the
specified properties.

Amplitude names are modelled as `List Char` (the C++ `std::string`).
C++ `std::string::substr`, which throws `std::out_of_range` when the start
position exceeds the string size, is modelled with `Option`-returning
functions.  `std::map` is modelled as an association list whose key order
records insertion order; the C++ iteration order of a `std::map` (ascending
key order) is recovered by sorting the keys with the lexicographic order on
character codes whenever a loop of the source iterates over a map.
-/

set_option maxHeartbeats 1000000

namespace ExtractFitResults

/-- Character lists, the model of C++ `std::string`. -/
abbrev LC := List Char

/-- `leadsWith pat s` holds when `pat` is an initial run of `s`
(the test `std::string::compare`-style matching at position 0). -/
def leadsWith : LC → LC → Bool
  | [], _ => true
  | _ :: _, [] => false
  | p :: ps, c :: cs => p = c && leadsWith ps cs

/-- `containsSub pat s` models C++ `s.find(pat) != std::string::npos`:
`pat` occurs as a contiguous run somewhere in `s`. -/
def containsSub (pat : LC) : LC → Bool
  | [] => pat.isEmpty
  | s@(_ :: rest) => leadsWith pat s || containsSub pat rest

/-- The separator `"::"` between the reaction, reflectivity-sum and
quantum-number segments of an amplitude name. -/
def sepChars : LC := (":" ++ ":").data

/-- `rfindSep s` models `s.rfind("::")`: the start index of the last
occurrence of `"::"` in `s`, or `none` when there is none. -/
def rfindSep : LC → Option Nat
  | [] => none
  | c :: rest =>
    match rfindSep rest with
    | some i => some (i + 1)
    | none => if leadsWith sepChars (c :: rest) then some 0 else none

/-- `substrFrom s pos` models `s.substr(pos)`: `none` exactly when the C++
call throws `std::out_of_range` (that is, when `pos > s.size()`). -/
def substrFrom (s : LC) (pos : Nat) : Option LC :=
  if pos ≤ s.length then some (s.drop pos) else none

/-- `substrLen s pos len` models `s.substr(pos, len)`: `none` exactly when
the C++ call throws `std::out_of_range`. -/
def substrLen (s : LC) (pos len : Nat) : Option LC :=
  if pos ≤ s.length then some ((s.drop pos).take len) else none

/-- The trailing segment of an amplitude name after the last `"::"`,
as computed by the source expression `amplitude.substr(amplitude.rfind("::") + 2)`.
When `rfind` fails it returns `npos = SIZE_MAX`, and `npos + 2` wraps to `1`,
so the source then takes `substr(1)`. -/
def trailingSeg (a : LC) : Option LC :=
  match rfindSep a with
  | some i => substrFrom a (i + 2)
  | none => substrFrom a 1

/-- `parse_amplitude` from the source: split the trailing `eJPmL` segment
positionally into reflectivity (width 1), spin-parity (width 2),
m-projection (width 1) and the remaining orbital-L code.  `none` models the
`std::out_of_range` exception thrown by `substr` on a too-short segment. -/
def parse_amplitude (amplitude : LC) : Option (LC × LC × LC × LC) :=
  match trailingSeg amplitude with
  | none => none
  | some eJPmL =>
    match substrLen eJPmL 0 1, substrLen eJPmL 1 2,
          substrLen eJPmL 3 1, substrFrom eJPmL 4 with
    | some e, some jp, some m, some l => some (e, jp, m, l)
    | _, _, _, _ => none

/-- The total version of the trailing segment (empty when undefined),
used to state properties about an amplitude's quantum-number code. -/
def segOf (a : LC) : LC := (trailingSeg a).getD []

-- ===== basic lemmas about the string primitives =====

theorem leadsWith_refl (p : LC) : leadsWith p p = true := by
  induction p with
  | nil => rfl
  | cons c cs ih => simp [leadsWith, ih]

theorem containsSub_of_drop_eq (pat s : LC) (n : Nat) (h : s.drop n = pat) :
    containsSub pat s = true := by
  induction s generalizing n with
  | nil =>
    simp at h
    subst h
    rfl
  | cons c cs ih =>
    match n with
    | 0 =>
      simp at h
      subst h
      simp [containsSub, leadsWith_refl]
    | n + 1 =>
      simp [List.drop] at h
      simp [containsSub, ih n h]

theorem leadsWith_append (pat s q : LC) (h : leadsWith pat s = true) :
    leadsWith pat (s ++ q) = true := by
  induction pat generalizing s with
  | nil => rfl
  | cons p ps ih =>
    cases s with
    | nil => exact absurd h (by simp [leadsWith])
    | cons c cs =>
      simp [leadsWith] at h ⊢
      exact ⟨h.1, ih cs h.2⟩

theorem containsSub_append_left (pat p q : LC) (h : containsSub pat p = true) :
    containsSub pat (p ++ q) = true := by
  induction p with
  | nil =>
    simp [containsSub] at h
    subst h
    cases q with
    | nil => rfl
    | cons c cs => simp [containsSub, leadsWith]
  | cons c cs ih =>
    simp only [containsSub, Bool.or_eq_true] at h
    rcases h with h | h
    · have h2 : leadsWith pat ((c :: cs) ++ q) = true :=
        leadsWith_append pat (c :: cs) q h
      rw [List.cons_append] at h2
      simp [containsSub, h2]
    · simp [containsSub, ih h]

theorem rfindSep_eq_none_of_not_contains (s : LC)
    (h : containsSub sepChars s = false) : rfindSep s = none := by
  induction s with
  | nil => rfl
  | cons c cs ih =>
    simp only [containsSub, Bool.or_eq_false_iff] at h
    simp [rfindSep, ih h.2, h.1]

/-- Position of the last separator in a name split as
`x ++ "::" ++ seg`, provided no further separator starts inside
`":" ++ seg` (which would shift the last occurrence to the right). -/
theorem rfindSep_append (x seg : LC)
    (h : containsSub sepChars (':' :: seg) = false) :
    rfindSep (x ++ ':' :: ':' :: seg) = some x.length := by
  induction x with
  | nil =>
    have hseg : containsSub sepChars seg = false := by
      simp only [containsSub, Bool.or_eq_false_iff] at h
      exact h.2
    have hlead : leadsWith sepChars (':' :: seg) = false := by
      simp only [containsSub, Bool.or_eq_false_iff] at h
      exact h.1
    have htail : rfindSep (':' :: seg) = none := by
      show (match rfindSep seg with
            | some i => some (i + 1)
            | none => if leadsWith sepChars (':' :: seg) then some 0 else none) = none
      rw [rfindSep_eq_none_of_not_contains seg hseg, hlead]
      rfl
    show (match rfindSep (':' :: seg) with
          | some i => some (i + 1)
          | none => if leadsWith sepChars (':' :: ':' :: seg) then some 0 else none) =
        some ([] : LC).length
    rw [htail]
    have : leadsWith sepChars (':' :: ':' :: seg) = true := by
      simp [sepChars, leadsWith]
    rw [this]
    rfl
  | cons c cs ih =>
    show (match rfindSep (cs ++ ':' :: ':' :: seg) with
          | some i => some (i + 1)
          | none =>
            if leadsWith sepChars (c :: (cs ++ ':' :: ':' :: seg)) then some 0 else none) =
        some (c :: cs).length
    rw [ih]
    rfl

theorem trailingSeg_append (x seg : LC)
    (h : containsSub sepChars (':' :: seg) = false) :
    trailingSeg (x ++ ':' :: ':' :: seg) = some seg := by
  have hr := rfindSep_append x seg h
  have hlen : x.length + 2 ≤ (x ++ ':' :: ':' :: seg).length := by
    simp only [List.length_append, List.length_cons]
    omega
  have hdrop : (x ++ ':' :: ':' :: seg).drop (x.length + 2) = seg := by
    rw [← List.drop_drop, List.drop_left]
    simp
  unfold trailingSeg
  simp only [hr]
  unfold substrFrom
  rw [if_pos hlen, hdrop]

/-- On a segment of length at least 4, `parse_amplitude` succeeds and the
four fields are the positional takes/drops of the segment. -/
theorem parse_amplitude_of_seg (a seg : LC) (hseg : trailingSeg a = some seg)
    (hlen : 4 ≤ seg.length) :
    parse_amplitude a =
      some (seg.take 1, (seg.drop 1).take 2, (seg.drop 3).take 1, seg.drop 4) := by
  have h1 : substrLen seg 0 1 = some (seg.take 1) := by
    unfold substrLen
    rw [if_pos (by omega)]
    simp
  have h2 : substrLen seg 1 2 = some ((seg.drop 1).take 2) := by
    unfold substrLen
    rw [if_pos (by omega)]
  have h3 : substrLen seg 3 1 = some ((seg.drop 3).take 1) := by
    unfold substrLen
    rw [if_pos (by omega)]
  have h4 : substrFrom seg 4 = some (seg.drop 4) := by
    unfold substrFrom
    rw [if_pos (by omega)]
  unfold parse_amplitude
  simp only [hseg, h1, h2, h3, h4]

/-- On a trailing segment shorter than 4 characters, `parse_amplitude`
fails (the C++ call throws `std::out_of_range`). -/
theorem parse_amplitude_none_of_short (a seg : LC)
    (hseg : trailingSeg a = some seg) (hlen : seg.length < 4) :
    parse_amplitude a = none := by
  have h4 : substrFrom seg 4 = none := by
    unfold substrFrom
    rw [if_neg (by omega)]
  unfold parse_amplitude
  simp only [hseg, h4]
  cases substrLen seg 0 1 <;> cases substrLen seg 1 2 <;>
    cases substrLen seg 3 1 <;> rfl

/-- Conversely, a successful parse determines the four fields positionally
and forces the segment to have length at least 4. -/
theorem parse_amplitude_inv (a : LC) (e jp m l : LC)
    (h : parse_amplitude a = some (e, jp, m, l)) :
    ∃ seg, trailingSeg a = some seg ∧ 4 ≤ seg.length ∧
      e = seg.take 1 ∧ jp = (seg.drop 1).take 2 ∧
      m = (seg.drop 3).take 1 ∧ l = seg.drop 4 := by
  cases hts : trailingSeg a with
  | none =>
    unfold parse_amplitude at h
    rw [hts] at h
    exact absurd h (by simp)
  | some seg =>
    by_cases h4 : 4 ≤ seg.length
    · rw [parse_amplitude_of_seg a seg hts h4] at h
      simp only [Option.some.injEq, Prod.mk.injEq] at h
      obtain ⟨h1, h2, h3, h5⟩ := h
      exact ⟨seg, rfl, h4, h1.symm, h2.symm, h3.symm, h5.symm⟩
    · rw [parse_amplitude_none_of_short a seg hts (by omega)] at h
      exact absurd h (by simp)

/-- The four parsed fields concatenate back to the full segment. -/
theorem fields_concat (seg : LC) :
    seg.take 1 ++ ((seg.drop 1).take 2 ++ ((seg.drop 3).take 1 ++ seg.drop 4)) = seg := by
  have h13 : seg.take 1 ++ (seg.drop 1).take 2 = seg.take 3 := by
    have := (List.take_add seg 1 2).symm
    simpa using this
  have h34 : seg.take 3 ++ (seg.drop 3).take 1 = seg.take 4 := by
    have := (List.take_add seg 3 1).symm
    simpa using this
  calc seg.take 1 ++ ((seg.drop 1).take 2 ++ ((seg.drop 3).take 1 ++ seg.drop 4))
      = (seg.take 1 ++ (seg.drop 1).take 2) ++ (seg.drop 3).take 1 ++ seg.drop 4 := by
        simp [List.append_assoc]
    _ = seg.take 4 ++ seg.drop 4 := by rw [h13, h34]
    _ = seg := List.take_append_drop 4 seg

-- ===== sample names used to instantiate theorems with hypotheses =====

/-- A concrete amplitude name `"R::S::p1p0S"`. -/
def sampA : LC := ("R::S::p1p0S").data

/-- A concrete amplitude name `"R::S::m1m0S"` (negative reflectivity). -/
def sampB : LC := ("R::S::m1m0S").data

/-- A concrete amplitude name `"R::S::p1ppD"`. -/
def sampC : LC := ("R::S::p1ppD").data

/-- A concrete name with a 3-character trailing segment. -/
def sampShort : LC := ("R::S::p1p").data

/-- A concrete name with a 4-character trailing segment. -/
def sampFour : LC := ("R::S::p1p0").data

/-- An isotropic-background amplitude name. -/
def sampBkgd : LC := ("R::S::isotropic").data

/-- A name whose reaction segment carries the `"iso"` marker while the
trailing segment is an ordinary quantum-number code. -/
def sampIsoReaction : LC := ("Riso::S::p1p0S").data

/-- C4: for every identifier of the form `R::S::eJPmL` whose trailing
segment after the last `"::"` has at least 4 characters, `parse_amplitude`
returns four fields of widths 1, 2, 1 and the remainder, and concatenating
the four fields in order reproduces the trailing segment exactly.
(The side condition states that the written-out `eJPmL` part is really the
trailing segment: no further `"::"` occurrence starts at or after it.) -/
theorem parse_amplitude_roundtrip (r s seg : LC)
    (hsep : containsSub sepChars (':' :: seg) = false)
    (hlen : 4 ≤ seg.length) :
    ∃ e jp m l,
      parse_amplitude (r ++ ':' :: ':' :: (s ++ ':' :: ':' :: seg)) = some (e, jp, m, l) ∧
      e.length = 1 ∧ jp.length = 2 ∧ m.length = 1 ∧ l.length = seg.length - 4 ∧
      e ++ jp ++ m ++ l = seg := by
  have hshape : r ++ ':' :: ':' :: (s ++ ':' :: ':' :: seg) =
      (r ++ ':' :: ':' :: s) ++ ':' :: ':' :: seg := by
    simp [List.append_assoc]
  have hts : trailingSeg (r ++ ':' :: ':' :: (s ++ ':' :: ':' :: seg)) = some seg := by
    rw [hshape]
    exact trailingSeg_append _ seg hsep
  refine ⟨seg.take 1, (seg.drop 1).take 2, (seg.drop 3).take 1, seg.drop 4,
    parse_amplitude_of_seg _ seg hts hlen, ?_, ?_, ?_, ?_, ?_⟩
  · simp [List.length_take]
    omega
  · simp [List.length_take, List.length_drop]
    omega
  · simp [List.length_take, List.length_drop]
    omega
  · simp [List.length_drop]
  · have := fields_concat seg
    simpa [List.append_assoc] using this

/-- Witness for C4 at the concrete identifier `"R::S::p1p0S"`. -/
theorem parse_amplitude_roundtrip_witness :
    ∃ e jp m l,
      parse_amplitude (("R").data ++ ':' :: ':' ::
        (("S").data ++ ':' :: ':' :: ("p1p0S").data)) = some (e, jp, m, l) ∧
      e.length = 1 ∧ jp.length = 2 ∧ m.length = 1 ∧
      l.length = ("p1p0S").data.length - 4 ∧
      e ++ jp ++ m ++ l = ("p1p0S").data :=
  parse_amplitude_roundtrip (("R").data) (("S").data) (("p1p0S").data)
    (by decide) (by decide)

/-- C9: `parse_amplitude` is not total.  On any identifier whose trailing
segment after the last `"::"` has fewer than 4 characters the C++ code
throws `std::out_of_range` (modelled as `none`); on a segment of exactly 4
characters it returns with an empty orbital-L field. -/
theorem parse_amplitude_partiality (a seg : LC) (hseg : trailingSeg a = some seg) :
    (seg.length < 4 → parse_amplitude a = none) ∧
    (seg.length = 4 → ∃ e jp m, parse_amplitude a = some (e, jp, m, [])) := by
  constructor
  · intro h4
    exact parse_amplitude_none_of_short a seg hseg h4
  · intro h4
    refine ⟨seg.take 1, (seg.drop 1).take 2, (seg.drop 3).take 1, ?_⟩
    have := parse_amplitude_of_seg a seg hseg (by omega)
    have hnil : seg.drop 4 = [] := by
      apply List.drop_eq_nil_of_le
      omega
    rw [hnil] at this
    exact this

/-- Witness for C9: the 3-character segment of `"R::S::p1p"` makes
`parse_amplitude` fail, and the 4-character segment of `"R::S::p1p0"`
parses with an empty orbital-L field. -/
theorem parse_amplitude_partiality_witness :
    parse_amplitude sampShort = none ∧
    (∃ e jp m, parse_amplitude sampFour = some (e, jp, m, [])) :=
  ⟨(parse_amplitude_partiality sampShort (("p1p").data) (by decide)).1 (by decide),
   (parse_amplitude_partiality sampFour (("p1p0").data) (by decide)).2 (by decide)⟩

-- ===== the aggregation state filled by `fill_maps` =====

/-- The isotropic-background test of the source:
`amplitude.find("Bkgd") != npos || amplitude.find("iso") != npos`,
a substring test over the full amplitude name. -/
def isBkgd (a : LC) : Bool :=
  containsSub (("Bkgd").data) a || containsSub (("iso").data) a

/-- The reserved group key for isotropic background. -/
def bkgdKey : LC := ("Bkgd").data

/-- First character of a string, modelling C++ `s[0]` (which for an empty
`std::string` yields the null character). -/
def headChar (s : LC) : Char := s.headD (Char.ofNat 0)

/-- One `std::map<std::string, std::vector<std::string>>`: an association
list holding the key/value pairs in insertion (first-seen) order. -/
abbrev Groups := List (LC × List LC)

/-- The phase-difference map
`std::map<std::string, std::pair<std::string, std::string>>`, again as an
insertion-ordered association list. -/
abbrev PDMap := List (LC × (LC × LC))

/-- `coherent_sums[tag][key].push_back(a)`: `operator[]` default-constructs
an empty vector for an absent key (appending the new key, which keeps the
association list in first-seen key order) and appends `a` to the vector. -/
def pushGroup : Groups → LC → LC → Groups
  | [], k, a => [(k, [a])]
  | (k', v) :: rest, k, a =>
    if k = k' then (k', v ++ [a]) :: rest else (k', v) :: pushGroup rest k a

/-- The vector stored under key `k` (empty when `k` is absent). -/
def lookupGroup : Groups → LC → List LC
  | [], _ => []
  | (k', v) :: rest, k => if k = k' then v else lookupGroup rest k

/-- The key list of a group map, in insertion (first-seen) order. -/
def keysOfG (g : Groups) : List LC := g.map Prod.fst

/-- `phase_diffs.find(k) != phase_diffs.end()`. -/
def findPD : PDMap → LC → Option (LC × LC)
  | [], _ => none
  | (k', v) :: rest, k => if k = k' then some v else findPD rest k

/-- `phase_diffs[k] = v`: replaces the value when `k` is present, otherwise
inserts the new key (at the end of the association list). -/
def setPD : PDMap → LC → LC × LC → PDMap
  | [], k, v => [(k, v)]
  | (k', v') :: rest, k, v =>
    if k = k' then (k', v) :: rest else (k', v') :: setPD rest k v

/-- The key list of the phase-difference map, in insertion order. -/
def keysOfPD (m : PDMap) : List LC := m.map Prod.fst

/-- Insert a key into a plain key list if absent (the key set of the
`production_coefficients` map, whose values live in the external store). -/
def insertKey (ks : List LC) (k : LC) : List LC :=
  if k ∈ ks then ks else ks ++ [k]

/-- The mutable maps of `extract_fit_results` that `fill_maps` populates
for one file: the seven coherent-sum maps, the key set of the
production-coefficient map, and the phase-difference map.  The standard
results map always receives the same seven fixed keys, so only its fixed
shape appears in the emission model below. -/
structure FillState where
  sums_eJPmL : Groups
  sums_JPmL : Groups
  sums_eJPL : Groups
  sums_JPL : Groups
  sums_eJP : Groups
  sums_JP : Groups
  sums_e : Groups
  prodKeys : List LC
  phase_diffs : PDMap
deriving DecidableEq

/-- The seven fixed coherent-sum tags. -/
inductive SumTag
  | eJPmL
  | tJPmL
  | eJPL
  | tJPL
  | eJP
  | tJP
  | tE
deriving DecidableEq

/-- The coherent-sum map selected by a tag. -/
def FillState.sums (st : FillState) : SumTag → Groups
  | .eJPmL => st.sums_eJPmL
  | .tJPmL => st.sums_JPmL
  | .eJPL => st.sums_eJPL
  | .tJPL => st.sums_JPL
  | .eJP => st.sums_eJP
  | .tJP => st.sums_JP
  | .tE => st.sums_e

/-- The grouping key a tag derives from a trailing `eJPmL` segment: the
concatenation of exactly the retained fixed-width fields. -/
def tagKeyOfSeg (t : SumTag) (seg : LC) : LC :=
  match t with
  | .eJPmL => seg
  | .tJPmL => seg.drop 1
  | .eJPL => seg.take 3 ++ seg.drop 4
  | .tJPL => (seg.drop 1).take 2 ++ seg.drop 4
  | .eJP => seg.take 3
  | .tJP => (seg.drop 1).take 2
  | .tE => seg.take 1

/-- The grouping key a tag assigns to an amplitude name. -/
def tagKey (t : SumTag) (a : LC) : LC := tagKeyOfSeg t (segOf a)

/-- The empty maps at the start of a file's processing. -/
def initState : FillState := ⟨[], [], [], [], [], [], [], [], []⟩

/-- The inner loop of `fill_maps` over `results.ampList(reaction)` that
registers phase differences for the current (non-background) amplitude
`A` whose trailing segment is `eJPmL`.  `none` models an uncaught
`std::out_of_range` from `substr`. -/
def processPhase (A : LC) (eJPmL : LC) : List LC → PDMap → Option PDMap
  | [], pds => some pds
  | B :: rest, pds =>
    if B = A then processPhase A eJPmL rest pds
    else if isBkgd B then processPhase A eJPmL rest pds
    else
      match trailingSeg B with
      | none => none
      | some pdSeg =>
        if (findPD pds (pdSeg ++ '_' :: eJPmL)).isSome then
          processPhase A eJPmL rest pds
        else if headChar eJPmL ≠ headChar pdSeg then
          processPhase A eJPmL rest pds
        else
          processPhase A eJPmL rest (setPD pds (eJPmL ++ '_' :: pdSeg) (A, B))

/-- The seven `push_back` lines of the source (plus the
production-coefficient key record) for a parsed amplitude `A` with fields
`e`, `jp`, `m`, `l`. -/
def pushSums (st : FillState) (A : LC) (e jp m l : LC) : FillState :=
  { st with
    prodKeys := insertKey st.prodKeys (e ++ (jp ++ (m ++ l)))
    sums_eJPmL := pushGroup st.sums_eJPmL (e ++ (jp ++ (m ++ l))) A
    sums_JPmL := pushGroup st.sums_JPmL (jp ++ (m ++ l)) A
    sums_eJPL := pushGroup st.sums_eJPL (e ++ (jp ++ l)) A
    sums_JPL := pushGroup st.sums_JPL (jp ++ l) A
    sums_eJP := pushGroup st.sums_eJP (e ++ jp) A
    sums_JP := pushGroup st.sums_JP jp A
    sums_e := pushGroup st.sums_e e A }

/-- The body of `fill_maps`' loop for one amplitude of one reaction:
background goes unparsed into the reserved `eJPmL` group; otherwise the
name is parsed and pushed into the seven coherent-sum maps, its production
coefficient key is recorded, and the phase-difference inner loop runs over
the reaction's amplitude list. -/
def processAmp (reactionAmps : List LC) (st : FillState) (A : LC) : Option FillState :=
  if isBkgd A then
    some { st with sums_eJPmL := pushGroup st.sums_eJPmL bkgdKey A }
  else
    match parse_amplitude A with
    | none => none
    | some (e, jp, m, l) =>
      let st1 := pushSums st A e jp m l
      match processPhase A (e ++ (jp ++ (m ++ l))) reactionAmps st1.phase_diffs with
      | none => none
      | some pds => some { st1 with phase_diffs := pds }

/-- Processing of one reaction's amplitude list. -/
def processAmps (reactionAmps : List LC) (st : FillState) : List LC → Option FillState
  | [] => some st
  | a :: rest =>
    match processAmp reactionAmps st a with
    | none => none
    | some st' => processAmps reactionAmps st' rest

/-- The external fit-results handle, restricted to the queries whose
answers shape the control flow of this core (everything numeric stays in
the external store and appears only as query events in the emission
model). -/
structure FitResults where
  valid : Bool
  reactionList : List LC
  ampList : LC → List LC
  parNameList : List LC
deriving Inhabited

/-- Processing of a list of reactions. -/
def processReactions (res : FitResults) (st : FillState) : List LC → Option FillState
  | [] => some st
  | r :: rest =>
    match processAmps (res.ampList r) st (res.ampList r) with
    | none => none
    | some st' => processReactions res st' rest

/-- `fill_maps` from the source: populate all maps for one file by
iterating over every reaction and every amplitude within it. -/
def fill_maps (res : FitResults) : Option FillState :=
  processReactions res initState res.reactionList

/-- All amplitudes of a file, in processing order. -/
def allAmps (res : FitResults) : List LC :=
  res.reactionList.flatMap res.ampList

-- ===== association-list map lemmas =====

theorem mem_lookupGroup_pushGroup (g : Groups) (k b : LC) (k' a : LC) :
    a ∈ lookupGroup (pushGroup g k b) k' ↔
      a ∈ lookupGroup g k' ∨ (a = b ∧ k' = k) := by
  induction g with
  | nil =>
    by_cases h : k' = k
    · subst h
      simp [pushGroup, lookupGroup]
    · simp [pushGroup, lookupGroup, h]
  | cons kv rest ih =>
    obtain ⟨k0, v0⟩ := kv
    by_cases hk : k = k0
    · subst hk
      by_cases hk' : k' = k
      · subst hk'
        simp [pushGroup, lookupGroup]
      · simp [pushGroup, lookupGroup, hk']
    · by_cases hk' : k' = k0
      · subst hk'
        simp [pushGroup, lookupGroup, hk, Ne.symm hk]
      · simp [pushGroup, lookupGroup, hk, hk', ih]

theorem keysOfG_pushGroup (g : Groups) (k b : LC) :
    keysOfG (pushGroup g k b) =
      if k ∈ keysOfG g then keysOfG g else keysOfG g ++ [k] := by
  induction g with
  | nil => simp [pushGroup, keysOfG]
  | cons kv rest ih =>
    obtain ⟨k0, v0⟩ := kv
    by_cases hk : k = k0
    · subst hk
      simp [pushGroup, keysOfG]
    · simp only [pushGroup, if_neg hk, keysOfG, List.map_cons, List.mem_cons]
      simp only [keysOfG] at ih
      rw [ih]
      by_cases hmem : k ∈ rest.map Prod.fst
      · simp [hmem, hk]
      · simp [hmem, hk]

theorem findPD_isSome_iff (m : PDMap) (k : LC) :
    (findPD m k).isSome = true ↔ k ∈ keysOfPD m := by
  induction m with
  | nil => simp [findPD, keysOfPD]
  | cons kv rest ih =>
    obtain ⟨k0, v0⟩ := kv
    by_cases hk : k = k0
    · subst hk
      simp [findPD, keysOfPD]
    · simp [findPD, keysOfPD, hk, ih]

theorem mem_setPD (m : PDMap) (k : LC) (v : LC × LC) (e : LC × (LC × LC))
    (h : e ∈ setPD m k v) : e ∈ m ∨ e = (k, v) := by
  induction m with
  | nil =>
    simp [setPD] at h
    exact Or.inr h
  | cons kv rest ih =>
    obtain ⟨k0, v0⟩ := kv
    by_cases hk : k = k0
    · subst hk
      simp [setPD] at h
      rcases h with h | h
      · exact Or.inr (by rw [h])
      · exact Or.inl (List.mem_cons_of_mem _ h)
    · simp [setPD, hk] at h
      rcases h with h | h
      · exact Or.inl (by simp [h])
      · rcases ih h with h' | h'
        · exact Or.inl (List.mem_cons_of_mem _ h')
        · exact Or.inr h'

theorem keysOfPD_setPD (m : PDMap) (k : LC) (v : LC × LC) :
    keysOfPD (setPD m k v) =
      if k ∈ keysOfPD m then keysOfPD m else keysOfPD m ++ [k] := by
  induction m with
  | nil => simp [setPD, keysOfPD]
  | cons kv rest ih =>
    obtain ⟨k0, v0⟩ := kv
    by_cases hk : k = k0
    · subst hk
      simp [setPD, keysOfPD]
    · simp only [setPD, if_neg hk, keysOfPD, List.map_cons, List.mem_cons]
      simp only [keysOfPD] at ih
      rw [ih]
      by_cases hmem : k ∈ rest.map Prod.fst
      · simp [hmem, hk]
      · simp [hmem, hk]

-- ===== field decomposition of a successfully parsed amplitude =====

theorem take_one_append_take_two (s : LC) :
    s.take 1 ++ (s.drop 1).take 2 = s.take 3 := by
  have := List.take_add s 1 2
  simpa using this.symm

theorem take_concat3 (s : LC) :
    s.take 2 ++ ((s.drop 2).take 1 ++ s.drop 3) = s := by
  have h1 : s.take 2 ++ (s.drop 2).take 1 = s.take 3 := by
    have := List.take_add s 2 1
    simpa using this.symm
  calc s.take 2 ++ ((s.drop 2).take 1 ++ s.drop 3)
      = (s.take 2 ++ (s.drop 2).take 1) ++ s.drop 3 := by
        rw [List.append_assoc]
    _ = s.take 3 ++ s.drop 3 := by rw [h1]
    _ = s := List.take_append_drop 3 s

/-- The seven grouping keys pushed by the source for a parsed amplitude
are exactly the `tagKeyOfSeg` values of its trailing segment. -/
theorem pushed_keys_eq (seg : LC) :
    (seg.take 1 ++ ((seg.drop 1).take 2 ++ ((seg.drop 3).take 1 ++ seg.drop 4)) =
        tagKeyOfSeg .eJPmL seg) ∧
    ((seg.drop 1).take 2 ++ ((seg.drop 3).take 1 ++ seg.drop 4) =
        tagKeyOfSeg .tJPmL seg) ∧
    (seg.take 1 ++ ((seg.drop 1).take 2 ++ seg.drop 4) = tagKeyOfSeg .eJPL seg) ∧
    ((seg.drop 1).take 2 ++ seg.drop 4 = tagKeyOfSeg .tJPL seg) ∧
    (seg.take 1 ++ (seg.drop 1).take 2 = tagKeyOfSeg .eJP seg) ∧
    ((seg.drop 1).take 2 = tagKeyOfSeg .tJP seg) ∧
    (seg.take 1 = tagKeyOfSeg .tE seg) := by
  refine ⟨fields_concat seg, ?_, ?_, rfl, take_one_append_take_two seg, rfl, rfl⟩
  · show (seg.drop 1).take 2 ++ ((seg.drop 3).take 1 ++ seg.drop 4) = seg.drop 1
    have h3 : seg.drop 3 = (seg.drop 1).drop 2 := by
      rw [List.drop_drop]
    have h4 : seg.drop 4 = (seg.drop 1).drop 3 := by
      rw [List.drop_drop]
    rw [h3, h4]
    exact take_concat3 (seg.drop 1)
  · show seg.take 1 ++ ((seg.drop 1).take 2 ++ seg.drop 4) =
        seg.take 3 ++ seg.drop 4
    rw [← List.append_assoc, take_one_append_take_two]

-- ===== characterization of the coherent-sum maps built by fill_maps =====

/-- The condition under which `fill_maps` places amplitude `A` into group
`K` of tag `t`: non-background amplitudes go to the key their quantum
numbers derive, background goes to the reserved key of the finest tag. -/
def memKey (t : SumTag) (K A : LC) : Prop :=
  (isBkgd A = false ∧ K = tagKey t A) ∨
    (isBkgd A = true ∧ t = SumTag.eJPmL ∧ K = bkgdKey)

theorem sums_update_phase (st : FillState) (p : PDMap) (t : SumTag) :
    ({ st with phase_diffs := p } : FillState).sums t = st.sums t := by
  cases t <;> rfl

theorem pushSums_sums_mem (st : FillState) (A : LC) (e jp m l : LC)
    (hp : parse_amplitude A = some (e, jp, m, l)) (t : SumTag) (K a : LC) :
    a ∈ lookupGroup ((pushSums st A e jp m l).sums t) K ↔
      a ∈ lookupGroup (st.sums t) K ∨ (a = A ∧ K = tagKey t A) := by
  obtain ⟨seg, hts, hlen, he, hjp, hm, hl⟩ := parse_amplitude_inv A e jp m l hp
  subst he hjp hm hl
  have hsegOf : segOf A = seg := by simp [segOf, hts]
  obtain ⟨k1, k2, k3, k4, k5, k6, k7⟩ := pushed_keys_eq seg
  cases t with
  | eJPmL =>
    simp only [pushSums, FillState.sums, tagKey, hsegOf, mem_lookupGroup_pushGroup]
    rw [k1]
  | tJPmL =>
    simp only [pushSums, FillState.sums, tagKey, hsegOf, mem_lookupGroup_pushGroup]
    rw [k2]
  | eJPL =>
    simp only [pushSums, FillState.sums, tagKey, hsegOf, mem_lookupGroup_pushGroup]
    rw [k3]
  | tJPL =>
    simp only [pushSums, FillState.sums, tagKey, hsegOf, mem_lookupGroup_pushGroup]
    rw [k4]
  | eJP =>
    simp only [pushSums, FillState.sums, tagKey, hsegOf, mem_lookupGroup_pushGroup]
    rw [k5]
  | tJP =>
    simp only [pushSums, FillState.sums, tagKey, hsegOf, mem_lookupGroup_pushGroup]
    rw [k6]
  | tE =>
    simp only [pushSums, FillState.sums, tagKey, hsegOf, mem_lookupGroup_pushGroup]
    rw [k7]

theorem processAmp_sums_mem (ctx : List LC) (st : FillState) (A : LC)
    (st' : FillState) (h : processAmp ctx st A = some st') (t : SumTag) (K a : LC) :
    a ∈ lookupGroup (st'.sums t) K ↔
      a ∈ lookupGroup (st.sums t) K ∨ (a = A ∧ memKey t K A) := by
  unfold processAmp at h
  by_cases hb : isBkgd A
  · rw [if_pos hb] at h
    simp only [Option.some.injEq] at h
    subst h
    cases t <;>
      simp [FillState.sums, mem_lookupGroup_pushGroup, memKey, hb]
  · rw [if_neg hb] at h
    have hb' : isBkgd A = false := by
      exact Bool.not_eq_true _ ▸ (by simpa using hb)
    cases hp : parse_amplitude A with
    | none =>
      rw [hp] at h
      cases h
    | some q =>
      obtain ⟨e, jp, m, l⟩ := q
      simp only [hp] at h
      cases hpp : processPhase A (e ++ (jp ++ (m ++ l))) ctx
          (pushSums st A e jp m l).phase_diffs with
      | none =>
        rw [hpp] at h
        cases h
      | some pds =>
        rw [hpp] at h
        simp only [Option.some.injEq] at h
        subst h
        rw [sums_update_phase, pushSums_sums_mem st A e jp m l hp t K a]
        simp [memKey, hb']

theorem processAmps_sums_mem (ctx : List LC) (amps : List LC) (st st' : FillState)
    (h : processAmps ctx st amps = some st') (t : SumTag) (K a : LC) :
    a ∈ lookupGroup (st'.sums t) K ↔
      a ∈ lookupGroup (st.sums t) K ∨ (a ∈ amps ∧ memKey t K a) := by
  induction amps generalizing st with
  | nil =>
    unfold processAmps at h
    simp only [Option.some.injEq] at h
    subst h
    simp
  | cons A rest ih =>
    unfold processAmps at h
    cases hA : processAmp ctx st A with
    | none =>
      rw [hA] at h
      cases h
    | some st1 =>
      rw [hA] at h
      rw [ih st1 h, processAmp_sums_mem ctx st A st1 hA t K a]
      constructor
      · rintro ((h0 | ⟨rfl, hm⟩) | ⟨hmem, hm⟩)
        · exact Or.inl h0
        · exact Or.inr ⟨List.mem_cons_self _ _, hm⟩
        · exact Or.inr ⟨List.mem_cons_of_mem _ hmem, hm⟩
      · rintro (h0 | ⟨hmem, hm⟩)
        · exact Or.inl (Or.inl h0)
        · rcases List.mem_cons.mp hmem with rfl | hmem'
          · exact Or.inl (Or.inr ⟨rfl, hm⟩)
          · exact Or.inr ⟨hmem', hm⟩

theorem processReactions_sums_mem (res : FitResults) (rs : List LC)
    (st st' : FillState) (h : processReactions res st rs = some st')
    (t : SumTag) (K a : LC) :
    a ∈ lookupGroup (st'.sums t) K ↔
      a ∈ lookupGroup (st.sums t) K ∨
        (a ∈ rs.flatMap res.ampList ∧ memKey t K a) := by
  induction rs generalizing st with
  | nil =>
    unfold processReactions at h
    simp only [Option.some.injEq] at h
    subst h
    simp
  | cons r rest ih =>
    unfold processReactions at h
    cases hr : processAmps (res.ampList r) st (res.ampList r) with
    | none =>
      rw [hr] at h
      cases h
    | some st1 =>
      rw [hr] at h
      rw [ih st1 h, processAmps_sums_mem _ _ st st1 hr t K a]
      simp only [List.flatMap_cons, List.mem_append]
      constructor
      · rintro ((h0 | ⟨hmem, hm⟩) | ⟨hmem, hm⟩)
        · exact Or.inl h0
        · exact Or.inr ⟨Or.inl hmem, hm⟩
        · exact Or.inr ⟨Or.inr hmem, hm⟩
      · rintro (h0 | ⟨hmem | hmem, hm⟩)
        · exact Or.inl (Or.inl h0)
        · exact Or.inl (Or.inr ⟨hmem, hm⟩)
        · exact Or.inr ⟨hmem, hm⟩

/-- Full characterization of the coherent-sum maps produced by a
successful `fill_maps` run. -/
theorem fill_maps_sums_mem (res : FitResults) (st : FillState)
    (h : fill_maps res = some st) (t : SumTag) (K a : LC) :
    a ∈ lookupGroup (st.sums t) K ↔ a ∈ allAmps res ∧ memKey t K a := by
  have hchar := processReactions_sums_mem res res.reactionList initState st h t K a
  have hinit : lookupGroup (initState.sums t) K = [] := by
    cases t <;> rfl
  rw [hchar, hinit]
  simp [allAmps]

theorem processAmp_parse_success (ctx : List LC) (st : FillState) (A : LC)
    (st' : FillState) (h : processAmp ctx st A = some st')
    (hb : isBkgd A = false) : ∃ q, parse_amplitude A = some q := by
  unfold processAmp at h
  rw [if_neg (by simp [hb])] at h
  cases hp : parse_amplitude A with
  | none =>
    rw [hp] at h
    cases h
  | some q => exact ⟨q, rfl⟩

theorem processAmps_parse_success (ctx : List LC) (amps : List LC)
    (st st' : FillState) (h : processAmps ctx st amps = some st')
    (a : LC) (hmem : a ∈ amps) (hb : isBkgd a = false) :
    ∃ q, parse_amplitude a = some q := by
  induction amps generalizing st with
  | nil => cases hmem
  | cons A rest ih =>
    unfold processAmps at h
    cases hA : processAmp ctx st A with
    | none =>
      rw [hA] at h
      cases h
    | some st1 =>
      rw [hA] at h
      rcases List.mem_cons.mp hmem with rfl | hmem'
      · exact processAmp_parse_success ctx st a st1 hA hb
      · exact ih st1 h hmem'

theorem processReactions_parse_success (res : FitResults) (rs : List LC)
    (st st' : FillState) (h : processReactions res st rs = some st')
    (a : LC) (hmem : a ∈ rs.flatMap res.ampList) (hb : isBkgd a = false) :
    ∃ q, parse_amplitude a = some q := by
  induction rs generalizing st with
  | nil => cases hmem
  | cons r rest ih =>
    unfold processReactions at h
    cases hr : processAmps (res.ampList r) st (res.ampList r) with
    | none =>
      rw [hr] at h
      cases h
    | some st1 =>
      rw [hr] at h
      simp only [List.flatMap_cons, List.mem_append] at hmem
      rcases hmem with hmem' | hmem'
      · exact processAmps_parse_success _ _ st st1 hr a hmem' hb
      · exact ih st1 h hmem'

/-- A successful `fill_maps` run parsed every non-background amplitude, so
every such amplitude has a trailing segment of length at least 4. -/
theorem fill_maps_parse_success (res : FitResults) (st : FillState)
    (h : fill_maps res = some st) (a : LC) (hmem : a ∈ allAmps res)
    (hb : isBkgd a = false) : ∃ q, parse_amplitude a = some q :=
  processReactions_parse_success res res.reactionList initState st h a hmem hb

-- ===== characterization of the phase-difference map =====

/-- The canonical phase-difference key `"<segA>_<segB>"`. -/
def pairKey (x y : LC) : LC := x ++ '_' :: y

theorem processPhase_entries (A x : LC) (ctx : List LC) (pds pds' : PDMap)
    (h : processPhase A x ctx pds = some pds') (en : LC × (LC × LC))
    (hen : en ∈ pds') :
    en ∈ pds ∨ ∃ B, B ∈ ctx ∧ B ≠ A ∧ isBkgd B = false ∧
      headChar x = headChar (segOf B) ∧ en = (pairKey x (segOf B), (A, B)) := by
  induction ctx generalizing pds with
  | nil =>
    unfold processPhase at h
    simp only [Option.some.injEq] at h
    subst h
    exact Or.inl hen
  | cons B rest ih =>
    unfold processPhase at h
    by_cases hBA : B = A
    · rw [if_pos hBA] at h
      rcases ih pds h with h' | ⟨B', hB', rest'⟩
      · exact Or.inl h'
      · exact Or.inr ⟨B', List.mem_cons_of_mem _ hB', rest'⟩
    · rw [if_neg hBA] at h
      by_cases hBk : isBkgd B
      · rw [if_pos hBk] at h
        rcases ih pds h with h' | ⟨B', hB', rest'⟩
        · exact Or.inl h'
        · exact Or.inr ⟨B', List.mem_cons_of_mem _ hB', rest'⟩
      · rw [if_neg hBk] at h
        cases hts : trailingSeg B with
        | none =>
          rw [hts] at h
          cases h
        | some pdSeg =>
          simp only [hts] at h
          have hsegB : segOf B = pdSeg := by simp [segOf, hts]
          by_cases hdup : (findPD pds (pdSeg ++ '_' :: x)).isSome
          · rw [if_pos hdup] at h
            rcases ih pds h with h' | ⟨B', hB', rest'⟩
            · exact Or.inl h'
            · exact Or.inr ⟨B', List.mem_cons_of_mem _ hB', rest'⟩
          · rw [if_neg hdup] at h
            by_cases hrefl : headChar x ≠ headChar pdSeg
            · rw [if_pos hrefl] at h
              rcases ih pds h with h' | ⟨B', hB', rest'⟩
              · exact Or.inl h'
              · exact Or.inr ⟨B', List.mem_cons_of_mem _ hB', rest'⟩
            · rw [if_neg hrefl] at h
              rcases ih _ h with h' | ⟨B', hB', rest'⟩
              · rcases mem_setPD pds (x ++ '_' :: pdSeg) (A, B) en h' with h'' | h''
                · exact Or.inl h''
                · refine Or.inr ⟨B, List.mem_cons_self _ _, hBA, ?_, ?_, ?_⟩
                  · simpa using hBk
                  · rw [hsegB]
                    exact not_ne_iff.mp hrefl
                  · rw [hsegB, h'']
                    rfl
              · exact Or.inr ⟨B', List.mem_cons_of_mem _ hB', rest'⟩

theorem processAmp_phase_entries (ctx : List LC) (st : FillState) (A : LC)
    (st' : FillState) (h : processAmp ctx st A = some st') (en : LC × (LC × LC))
    (hen : en ∈ st'.phase_diffs) :
    en ∈ st.phase_diffs ∨
      (isBkgd A = false ∧ ∃ B, B ∈ ctx ∧ B ≠ A ∧ isBkgd B = false ∧
        headChar (segOf A) = headChar (segOf B) ∧
        en = (pairKey (segOf A) (segOf B), (A, B))) := by
  unfold processAmp at h
  by_cases hb : isBkgd A
  · rw [if_pos hb] at h
    simp only [Option.some.injEq] at h
    subst h
    exact Or.inl hen
  · rw [if_neg hb] at h
    have hb' : isBkgd A = false := by simpa using hb
    cases hp : parse_amplitude A with
    | none =>
      rw [hp] at h
      cases h
    | some q =>
      obtain ⟨e, jp, m, l⟩ := q
      simp only [hp] at h
      obtain ⟨seg, hts, hlen, he, hjp, hm, hl⟩ := parse_amplitude_inv A e jp m l hp
      have hsegOf : segOf A = seg := by simp [segOf, hts]
      have hx : e ++ (jp ++ (m ++ l)) = segOf A := by
        rw [hsegOf, he, hjp, hm, hl]
        exact fields_concat seg
      cases hpp : processPhase A (e ++ (jp ++ (m ++ l))) ctx
          (pushSums st A e jp m l).phase_diffs with
      | none =>
        rw [hpp] at h
        cases h
      | some pds =>
        rw [hpp] at h
        simp only [Option.some.injEq] at h
        subst h
        simp only at hen
        have hpush : (pushSums st A e jp m l).phase_diffs = st.phase_diffs := rfl
        rcases processPhase_entries A (e ++ (jp ++ (m ++ l))) ctx _ pds hpp en hen with
          h' | ⟨B, hB, hBA, hBk, hhead, hkey⟩
        · rw [hpush] at h'
          exact Or.inl h'
        · refine Or.inr ⟨hb', B, hB, hBA, hBk, ?_, ?_⟩
          · rw [← hx]
            exact hhead
          · rw [← hx]
            exact hkey

theorem processAmps_phase_entries (ctx : List LC) (amps : List LC)
    (st st' : FillState) (h : processAmps ctx st amps = some st')
    (en : LC × (LC × LC)) (hen : en ∈ st'.phase_diffs) :
    en ∈ st.phase_diffs ∨
      ∃ A, A ∈ amps ∧ isBkgd A = false ∧ ∃ B, B ∈ ctx ∧ B ≠ A ∧
        isBkgd B = false ∧ headChar (segOf A) = headChar (segOf B) ∧
        en = (pairKey (segOf A) (segOf B), (A, B)) := by
  induction amps generalizing st with
  | nil =>
    unfold processAmps at h
    simp only [Option.some.injEq] at h
    subst h
    exact Or.inl hen
  | cons A rest ih =>
    unfold processAmps at h
    cases hA : processAmp ctx st A with
    | none =>
      rw [hA] at h
      cases h
    | some st1 =>
      rw [hA] at h
      rcases ih st1 h with h' | ⟨A', hA', rest'⟩
      · rcases processAmp_phase_entries ctx st A st1 hA en h' with h'' | ⟨hb, B, hrest⟩
        · exact Or.inl h''
        · exact Or.inr ⟨A, List.mem_cons_self _ _, hb, B, hrest⟩
      · exact Or.inr ⟨A', List.mem_cons_of_mem _ hA', rest'⟩

theorem processReactions_phase_entries (res : FitResults) (rs : List LC)
    (st st' : FillState) (h : processReactions res st rs = some st')
    (en : LC × (LC × LC)) (hen : en ∈ st'.phase_diffs) :
    en ∈ st.phase_diffs ∨
      ∃ r, r ∈ rs ∧ ∃ A, A ∈ res.ampList r ∧ isBkgd A = false ∧
        ∃ B, B ∈ res.ampList r ∧ B ≠ A ∧ isBkgd B = false ∧
          headChar (segOf A) = headChar (segOf B) ∧
          en = (pairKey (segOf A) (segOf B), (A, B)) := by
  induction rs generalizing st with
  | nil =>
    unfold processReactions at h
    simp only [Option.some.injEq] at h
    subst h
    exact Or.inl hen
  | cons r rest ih =>
    unfold processReactions at h
    cases hr : processAmps (res.ampList r) st (res.ampList r) with
    | none =>
      rw [hr] at h
      cases h
    | some st1 =>
      rw [hr] at h
      rcases ih st1 h with h' | ⟨r', hr', rest'⟩
      · rcases processAmps_phase_entries _ _ st st1 hr en h' with h'' | ⟨A, hrest⟩
        · exact Or.inl h''
        · exact Or.inr ⟨r, List.mem_cons_self _ _, A, hrest⟩
      · exact Or.inr ⟨r', List.mem_cons_of_mem _ hr', rest'⟩

/-- Every entry of the phase-difference map of a successful `fill_maps` run
pairs two distinct, non-background amplitudes of one reaction with equal
reflectivity, under the canonical segment-pair key, with the outer-loop
amplitude first. -/
theorem fill_maps_phase_entries (res : FitResults) (st : FillState)
    (h : fill_maps res = some st) (k A B : LC)
    (hen : (k, (A, B)) ∈ st.phase_diffs) :
    ∃ r, r ∈ res.reactionList ∧ A ∈ res.ampList r ∧ B ∈ res.ampList r ∧
      B ≠ A ∧ isBkgd A = false ∧ isBkgd B = false ∧
      headChar (segOf A) = headChar (segOf B) ∧
      k = pairKey (segOf A) (segOf B) := by
  rcases processReactions_phase_entries res res.reactionList initState st h
      (k, (A, B)) hen with h' | ⟨r, hr, A', hA', hbA, B', hB', hBA, hbB, hhead, hkey⟩
  · cases h'
  · have hA : A = A' := by simpa using congrArg (fun p => p.2.1) hkey
    have hB : B = B' := by simpa using congrArg (fun p => p.2.2) hkey
    have hk : k = pairKey (segOf A') (segOf B') := by
      simpa using congrArg (fun p => p.1) hkey
    rw [hA, hB]
    exact ⟨r, hr, hA', hB', hBA, hbA, hbB, hhead, hk⟩

-- ===== claim theorems about the grouping and the phase-difference map =====

theorem trailingSeg_is_drop (a seg : LC) (h : trailingSeg a = some seg) :
    ∃ n, a.drop n = seg := by
  unfold trailingSeg at h
  cases hr : rfindSep a with
  | some i =>
    simp only [hr] at h
    unfold substrFrom at h
    by_cases hle : i + 2 ≤ a.length
    · rw [if_pos hle] at h
      exact ⟨i + 2, by injection h⟩
    · rw [if_neg hle] at h
      cases h
  | none =>
    simp only [hr] at h
    unfold substrFrom at h
    by_cases hle : 1 ≤ a.length
    · rw [if_pos hle] at h
      exact ⟨1, by injection h⟩
    · rw [if_neg hle] at h
      cases h

theorem segOf_ne_bkgdKey (a : LC) (hb : isBkgd a = false) : segOf a ≠ bkgdKey := by
  intro heq
  cases hts : trailingSeg a with
  | none =>
    rw [show segOf a = [] by simp [segOf, hts]] at heq
    cases heq
  | some seg =>
    have hseg : seg = bkgdKey := by
      rw [← heq]
      simp [segOf, hts]
    obtain ⟨n, hn⟩ := trailingSeg_is_drop a seg hts
    have : containsSub (("Bkgd").data) a = true :=
      containsSub_of_drop_eq _ a n (by rw [hn, hseg]; rfl)
    simp [isBkgd, this] at hb

/-- Core routing fact for background amplitudes, shared by the claims about
the background special case. -/
theorem bkgd_routing_core (res : FitResults) (st : FillState)
    (h : fill_maps res = some st) (A : LC) (hmem : A ∈ allAmps res)
    (hb : isBkgd A = true) :
    (A ∈ lookupGroup (st.sums SumTag.eJPmL) bkgdKey) ∧
    (∀ t K, ¬(t = SumTag.eJPmL ∧ K = bkgdKey) →
      A ∉ lookupGroup (st.sums t) K) ∧
    (∀ k b, (k, (A, b)) ∉ st.phase_diffs ∧ (k, (b, A)) ∉ st.phase_diffs) := by
  refine ⟨?_, ?_, ?_⟩
  · exact (fill_maps_sums_mem res st h SumTag.eJPmL bkgdKey A).2
      ⟨hmem, Or.inr ⟨hb, rfl, rfl⟩⟩
  · intro t K hne hin
    rcases (fill_maps_sums_mem res st h t K A).1 hin with ⟨_, hk⟩
    rcases hk with ⟨hfalse, _⟩ | ⟨_, ht, hK⟩
    · rw [hb] at hfalse
      cases hfalse
    · exact hne ⟨ht, hK⟩
  · intro k b
    constructor
    · intro hin
      obtain ⟨_, _, _, _, _, hbA, _, _, _⟩ :=
        fill_maps_phase_entries res st h k A b hin
      rw [hb] at hbA
      cases hbA
    · intro hin
      obtain ⟨_, _, _, _, _, _, hbA, _, _⟩ :=
        fill_maps_phase_entries res st h k b A hin
      rw [hb] at hbA
      cases hbA

/-- A small concrete fit-results handle used to witness the theorems. -/
def resSample : FitResults :=
  { valid := true
    reactionList := [("R").data]
    ampList := fun _ => [sampA, sampB, sampC]
    parNameList := [] }

/-- A concrete handle containing a background amplitude. -/
def resSampleBkgd : FitResults :=
  { valid := true
    reactionList := [("R").data]
    ampList := fun _ => [sampA, sampBkgd]
    parNameList := [] }

/-- A concrete handle whose background marker sits in the reaction segment. -/
def resSampleIso : FitResults :=
  { valid := true
    reactionList := [("R").data]
    ampList := fun _ => [sampA, sampIsoReaction]
    parNameList := [] }

/-- C1: for every input amplitude set (any successful `fill_maps` run),
each non-background amplitude lies in exactly one group of each of the 7
tags, namely the group keyed by its tag key; and the `eJPmL` grouping
refines each of the six coarser tags: membership in a coarser group `K` is
exactly membership in some finest-tag group `F` (other than the reserved
background group) whose label coarsens to `K`. -/
theorem coherent_sum_grouping (res : FitResults) (st : FillState)
    (h : fill_maps res = some st) :
    (∀ a, a ∈ allAmps res → isBkgd a = false →
      ∀ t K, a ∈ lookupGroup (st.sums t) K ↔ K = tagKey t a) ∧
    (∀ t, t ≠ SumTag.eJPmL → ∀ K a,
      a ∈ lookupGroup (st.sums t) K ↔
        ∃ F, F ≠ bkgdKey ∧ tagKeyOfSeg t F = K ∧
          a ∈ lookupGroup (st.sums SumTag.eJPmL) F) := by
  constructor
  · intro a hmem hb t K
    rw [fill_maps_sums_mem res st h t K a]
    constructor
    · rintro ⟨_, ⟨_, hk⟩ | ⟨hbt, _, _⟩⟩
      · exact hk
      · rw [hb] at hbt
        cases hbt
    · intro hk
      exact ⟨hmem, Or.inl ⟨hb, hk⟩⟩
  · intro t ht K a
    constructor
    · intro hin
      rcases (fill_maps_sums_mem res st h t K a).1 hin with ⟨hmem, hk⟩
      rcases hk with ⟨hb, hK⟩ | ⟨_, hteq, _⟩
      · refine ⟨segOf a, segOf_ne_bkgdKey a hb, ?_, ?_⟩
        · rw [hK]
          rfl
        · exact (fill_maps_sums_mem res st h SumTag.eJPmL (segOf a) a).2
            ⟨hmem, Or.inl ⟨hb, rfl⟩⟩
      · exact absurd hteq ht
    · rintro ⟨F, hFb, hFK, hFin⟩
      rcases (fill_maps_sums_mem res st h SumTag.eJPmL F a).1 hFin with ⟨hmem, hk⟩
      rcases hk with ⟨hb, hF⟩ | ⟨_, _, hF⟩
      · refine (fill_maps_sums_mem res st h t K a).2 ⟨hmem, Or.inl ⟨hb, ?_⟩⟩
        rw [← hFK, hF]
        rfl
      · exact absurd hF hFb

/-- Witness for C1 on a concrete three-amplitude file: `sampA` lies in the
`JP`-tag group keyed by its own `JP` key, and membership in the `JP` group
of `sampA` is membership in a finest-tag group coarsening to it. -/
theorem coherent_sum_grouping_witness :
    (sampA ∈ lookupGroup (((fill_maps resSample).getD initState).sums SumTag.tJP)
        (tagKey SumTag.tJP sampA) ↔
      tagKey SumTag.tJP sampA = tagKey SumTag.tJP sampA) ∧
    (sampA ∈ lookupGroup (((fill_maps resSample).getD initState).sums SumTag.tJP)
        (tagKey SumTag.tJP sampA) ↔
      ∃ F, F ≠ bkgdKey ∧ tagKeyOfSeg SumTag.tJP F = tagKey SumTag.tJP sampA ∧
        sampA ∈ lookupGroup (((fill_maps resSample).getD initState).sums SumTag.eJPmL) F) :=
  ⟨(coherent_sum_grouping resSample ((fill_maps resSample).getD initState)
      (by decide)).1 sampA (by decide) (by decide) SumTag.tJP (tagKey SumTag.tJP sampA),
   (coherent_sum_grouping resSample ((fill_maps resSample).getD initState)
      (by decide)).2 SumTag.tJP (by decide) (tagKey SumTag.tJP sampA) sampA⟩

/-- C3: for every pair of amplitudes whose reflectivity fields (first
character of the trailing segments) differ, no phase-difference entry is
ever registered for that pair, in either orientation, under any key. -/
theorem phase_diff_reflectivity_guard (res : FitResults) (st : FillState)
    (h : fill_maps res = some st) (A B : LC)
    (hne : headChar (segOf A) ≠ headChar (segOf B)) (k : LC) :
    (k, (A, B)) ∉ st.phase_diffs ∧ (k, (B, A)) ∉ st.phase_diffs := by
  constructor
  · intro hin
    obtain ⟨_, _, _, _, _, _, _, hhead, _⟩ :=
      fill_maps_phase_entries res st h k A B hin
    exact hne hhead
  · intro hin
    obtain ⟨_, _, _, _, _, _, _, hhead, _⟩ :=
      fill_maps_phase_entries res st h k B A hin
    exact hne hhead.symm

/-- Witness for C3: the `p`- and `m`-reflectivity amplitudes `sampA` and
`sampB` of the concrete file share no phase-difference entry under the
canonical key, in either orientation. -/
theorem phase_diff_reflectivity_guard_witness :
    (pairKey (segOf sampA) (segOf sampB), (sampA, sampB)) ∉
        ((fill_maps resSample).getD initState).phase_diffs ∧
    (pairKey (segOf sampA) (segOf sampB), (sampB, sampA)) ∉
        ((fill_maps resSample).getD initState).phase_diffs :=
  phase_diff_reflectivity_guard resSample ((fill_maps resSample).getD initState)
    (by decide) sampA sampB (by decide) (pairKey (segOf sampA) (segOf sampB))

/-- C7: every amplitude carrying the isotropic-background marker is
appended unparsed to the reserved `"Bkgd"` group of the finest `eJPmL`
tag only, lies in no other group of any tag, and never appears in any
registered phase-difference pair, as either member. -/
theorem background_isolated (res : FitResults) (st : FillState)
    (h : fill_maps res = some st) (A : LC) (hmem : A ∈ allAmps res)
    (hb : isBkgd A = true) :
    (A ∈ lookupGroup (st.sums SumTag.eJPmL) bkgdKey) ∧
    (∀ t K, ¬(t = SumTag.eJPmL ∧ K = bkgdKey) →
      A ∉ lookupGroup (st.sums t) K) ∧
    (∀ k b, (k, (A, b)) ∉ st.phase_diffs ∧ (k, (b, A)) ∉ st.phase_diffs) :=
  bkgd_routing_core res st h A hmem hb

/-- Witness for C7 on a concrete file containing `"R::S::isotropic"`:
it lands in the reserved group, misses a coarser group, and pairs with
nothing. -/
theorem background_isolated_witness :
    (sampBkgd ∈ lookupGroup (((fill_maps resSampleBkgd).getD initState).sums
        SumTag.eJPmL) bkgdKey) ∧
    (sampBkgd ∉ lookupGroup (((fill_maps resSampleBkgd).getD initState).sums
        SumTag.tJP) (tagKey SumTag.tJP sampBkgd)) ∧
    ((pairKey (segOf sampBkgd) (segOf sampA), (sampBkgd, sampA)) ∉
        ((fill_maps resSampleBkgd).getD initState).phase_diffs) := by
  have happ := background_isolated resSampleBkgd
    ((fill_maps resSampleBkgd).getD initState) (by decide) sampBkgd
    (by decide) (by decide)
  exact ⟨happ.1,
    happ.2.1 SumTag.tJP (tagKey SumTag.tJP sampBkgd) (by decide),
    (happ.2.2 (pairKey (segOf sampBkgd) (segOf sampA)) sampA).1⟩

/-- C10: background classification is a substring test over the full
amplitude identifier: an amplitude whose marker occurs only in the part
before the last `"::"` (the reaction/reflectivity-sum segments) is still
routed to the reserved group of the finest tag only and excluded from all
phase-difference pairs. -/
theorem background_marker_full_name (res : FitResults) (st : FillState)
    (h : fill_maps res = some st) (p seg : LC)
    (hmem : p ++ ':' :: ':' :: seg ∈ allAmps res)
    (hmark : containsSub (("Bkgd").data) p = true ∨
      containsSub (("iso").data) p = true) :
    ((p ++ ':' :: ':' :: seg) ∈ lookupGroup (st.sums SumTag.eJPmL) bkgdKey) ∧
    (∀ t K, ¬(t = SumTag.eJPmL ∧ K = bkgdKey) →
      (p ++ ':' :: ':' :: seg) ∉ lookupGroup (st.sums t) K) ∧
    (∀ k b, (k, (p ++ ':' :: ':' :: seg, b)) ∉ st.phase_diffs ∧
      (k, (b, p ++ ':' :: ':' :: seg)) ∉ st.phase_diffs) := by
  have hb : isBkgd (p ++ ':' :: ':' :: seg) = true := by
    unfold isBkgd
    rcases hmark with hm | hm
    · rw [containsSub_append_left _ p _ hm]
      rfl
    · rw [containsSub_append_left _ p _ hm]
      simp
  exact bkgd_routing_core res st h _ hmem hb

/-- Witness for C10: `"Riso::S::p1p0S"` has its marker only in the
reaction segment and a clean quantum-number code, yet is treated as
background. -/
theorem background_marker_full_name_witness :
    ((("Riso").data ++ ':' :: ':' :: ("S::p1p0S").data) ∈
      lookupGroup (((fill_maps resSampleIso).getD initState).sums
        SumTag.eJPmL) bkgdKey) ∧
    ((("Riso").data ++ ':' :: ':' :: ("S::p1p0S").data) ∉
      lookupGroup (((fill_maps resSampleIso).getD initState).sums
        SumTag.tJP) (("1p").data)) := by
  have happ := background_marker_full_name resSampleIso
    ((fill_maps resSampleIso).getD initState) (by decide)
    (("Riso").data) (("S::p1p0S").data) (by decide) (Or.inr (by decide))
  exact ⟨happ.1, happ.2.1 SumTag.tJP (("1p").data) (by decide)⟩

-- ===== the key set of the phase-difference map as a pure fold =====

/-- One candidate ordered pair's effect on the key set of the
phase-difference map: skip when the reversed key is present, skip when the
reflectivities differ, otherwise record the canonical key (an assignment to
an existing key only replaces its value). -/
def pdKeyStep (ks : List LC) (c : LC × LC) : List LC :=
  if pairKey c.2 c.1 ∈ ks then ks
  else if headChar c.1 ≠ headChar c.2 then ks
  else if pairKey c.1 c.2 ∈ ks then ks
  else ks ++ [pairKey c.1 c.2]

/-- The segment pairs attempted by the inner phase-difference loop for one
outer amplitude `A`: one candidate per distinct non-background inner
amplitude, in list order. -/
def innerCands (A : LC) (ctx : List LC) : List (LC × LC) :=
  (ctx.filter (fun B => !(B == A) && !isBkgd B)).map (fun B => (segOf A, segOf B))

/-- All segment-pair candidates of one file, in processing order. -/
def pdCands (res : FitResults) : List (LC × LC) :=
  res.reactionList.flatMap (fun r =>
    (res.ampList r).flatMap (fun a =>
      if isBkgd a then [] else innerCands a (res.ampList r)))

theorem processPhase_keys (A x : LC) (ctx : List LC) (pds pds' : PDMap)
    (h : processPhase A x ctx pds = some pds') :
    keysOfPD pds' = List.foldl pdKeyStep (keysOfPD pds)
      ((ctx.filter (fun B => !(B == A) && !isBkgd B)).map (fun B => (x, segOf B))) := by
  induction ctx generalizing pds with
  | nil =>
    unfold processPhase at h
    simp only [Option.some.injEq] at h
    subst h
    rfl
  | cons B rest ih =>
    unfold processPhase at h
    by_cases hBA : B = A
    · rw [if_pos hBA] at h
      have hfilter : (B :: rest).filter (fun B => !(B == A) && !isBkgd B) =
          rest.filter (fun B => !(B == A) && !isBkgd B) := by
        simp [List.filter_cons, hBA]
      rw [hfilter]
      exact ih pds h
    · rw [if_neg hBA] at h
      by_cases hBk : isBkgd B
      · rw [if_pos hBk] at h
        have hfilter : (B :: rest).filter (fun B => !(B == A) && !isBkgd B) =
            rest.filter (fun B => !(B == A) && !isBkgd B) := by
          simp [List.filter_cons, hBk]
        rw [hfilter]
        exact ih pds h
      · rw [if_neg hBk] at h
        have hfilter : (B :: rest).filter (fun B => !(B == A) && !isBkgd B) =
            B :: rest.filter (fun B => !(B == A) && !isBkgd B) := by
          simp [List.filter_cons, hBA, hBk]
        rw [hfilter]
        cases hts : trailingSeg B with
        | none =>
          rw [hts] at h
          cases h
        | some pdSeg =>
          simp only [hts] at h
          have hsegB : segOf B = pdSeg := by simp [segOf, hts]
          simp only [List.map_cons, List.foldl_cons]
          by_cases hdup : (findPD pds (pdSeg ++ '_' :: x)).isSome
          · rw [if_pos hdup] at h
            have hstep : pdKeyStep (keysOfPD pds) (x, segOf B) = keysOfPD pds := by
              unfold pdKeyStep
              rw [if_pos]
              show pairKey (segOf B) x ∈ keysOfPD pds
              rw [hsegB]
              exact (findPD_isSome_iff pds _).1 hdup
            rw [hstep]
            exact ih pds h
          · rw [if_neg hdup] at h
            by_cases hrefl : headChar x ≠ headChar pdSeg
            · rw [if_pos hrefl] at h
              have hstep : pdKeyStep (keysOfPD pds) (x, segOf B) = keysOfPD pds := by
                unfold pdKeyStep
                rw [if_neg, if_pos]
                · show headChar x ≠ headChar (segOf B)
                  rw [hsegB]
                  exact hrefl
                · show ¬ pairKey (segOf B) x ∈ keysOfPD pds
                  rw [hsegB]
                  intro hmem
                  exact hdup ((findPD_isSome_iff pds _).2 hmem)
              rw [hstep]
              exact ih pds h
            · rw [if_neg hrefl] at h
              have hstep : pdKeyStep (keysOfPD pds) (x, segOf B) =
                  keysOfPD (setPD pds (x ++ '_' :: pdSeg) (A, B)) := by
                unfold pdKeyStep
                rw [keysOfPD_setPD, if_neg, if_neg]
                · rw [hsegB]
                  rfl
                · show ¬(headChar x ≠ headChar (segOf B))
                  rw [hsegB]
                  exact hrefl
                · show pairKey (segOf B) x ∉ keysOfPD pds
                  rw [hsegB]
                  intro hmem
                  exact hdup ((findPD_isSome_iff pds _).2 hmem)
              rw [hstep]
              exact ih (setPD pds (x ++ '_' :: pdSeg) (A, B)) h

theorem processAmp_keys (ctx : List LC) (st : FillState) (A : LC)
    (st' : FillState) (h : processAmp ctx st A = some st') :
    keysOfPD st'.phase_diffs = List.foldl pdKeyStep (keysOfPD st.phase_diffs)
      (if isBkgd A then [] else innerCands A ctx) := by
  unfold processAmp at h
  by_cases hb : isBkgd A
  · rw [if_pos hb] at h
    simp only [Option.some.injEq] at h
    subst h
    rw [if_pos hb]
    rfl
  · rw [if_neg hb] at h
    rw [if_neg hb]
    cases hp : parse_amplitude A with
    | none =>
      rw [hp] at h
      cases h
    | some q =>
      obtain ⟨e, jp, m, l⟩ := q
      simp only [hp] at h
      obtain ⟨seg, hts, hlen, he, hjp, hm, hl⟩ := parse_amplitude_inv A e jp m l hp
      have hx : e ++ (jp ++ (m ++ l)) = segOf A := by
        rw [show segOf A = seg by simp [segOf, hts], he, hjp, hm, hl]
        exact fields_concat seg
      cases hpp : processPhase A (e ++ (jp ++ (m ++ l))) ctx
          (pushSums st A e jp m l).phase_diffs with
      | none =>
        rw [hpp] at h
        cases h
      | some pds =>
        rw [hpp] at h
        simp only [Option.some.injEq] at h
        subst h
        have hkeys := processPhase_keys A (e ++ (jp ++ (m ++ l))) ctx _ pds hpp
        rw [show ({ pushSums st A e jp m l with phase_diffs := pds } :
            FillState).phase_diffs = pds from rfl, hkeys]
        rw [show (pushSums st A e jp m l).phase_diffs = st.phase_diffs from rfl]
        unfold innerCands
        rw [hx]

/-- The candidates contributed by one reaction's amplitude list. -/
def ampCands (ctx : List LC) (amps : List LC) : List (LC × LC) :=
  amps.flatMap (fun a => if isBkgd a then [] else innerCands a ctx)

theorem processAmps_keys (ctx : List LC) (amps : List LC) (st st' : FillState)
    (h : processAmps ctx st amps = some st') :
    keysOfPD st'.phase_diffs =
      List.foldl pdKeyStep (keysOfPD st.phase_diffs) (ampCands ctx amps) := by
  induction amps generalizing st with
  | nil =>
    unfold processAmps at h
    simp only [Option.some.injEq] at h
    subst h
    rfl
  | cons A rest ih =>
    unfold processAmps at h
    cases hA : processAmp ctx st A with
    | none =>
      rw [hA] at h
      cases h
    | some st1 =>
      rw [hA] at h
      rw [ih st1 h]
      unfold ampCands
      rw [List.flatMap_cons, List.foldl_append]
      rw [processAmp_keys ctx st A st1 hA]

theorem processReactions_keys (res : FitResults) (rs : List LC)
    (st st' : FillState) (h : processReactions res st rs = some st') :
    keysOfPD st'.phase_diffs = List.foldl pdKeyStep (keysOfPD st.phase_diffs)
      (rs.flatMap (fun r =>
        (res.ampList r).flatMap (fun a =>
          if isBkgd a then [] else innerCands a (res.ampList r)))) := by
  induction rs generalizing st with
  | nil =>
    unfold processReactions at h
    simp only [Option.some.injEq] at h
    subst h
    rfl
  | cons r rest ih =>
    unfold processReactions at h
    cases hr : processAmps (res.ampList r) st (res.ampList r) with
    | none =>
      rw [hr] at h
      cases h
    | some st1 =>
      rw [hr] at h
      rw [ih st1 h, List.flatMap_cons, List.foldl_append]
      rw [show (res.ampList r).flatMap (fun a =>
          if isBkgd a then [] else innerCands a (res.ampList r)) =
        ampCands (res.ampList r) (res.ampList r) from rfl]
      rw [processAmps_keys _ _ st st1 hr]

/-- The key set of the final phase-difference map equals a pure fold of
`pdKeyStep` over the segment-pair candidates in processing order. -/
theorem fill_maps_phase_keys (res : FitResults) (st : FillState)
    (h : fill_maps res = some st) :
    keysOfPD st.phase_diffs = List.foldl pdKeyStep [] (pdCands res) :=
  processReactions_keys res res.reactionList initState st h

-- ===== uniqueness of phase-difference keys (claim C2) =====

theorem pairKey_inj (x y u v : LC) (hx : '_' ∉ x) (hu : '_' ∉ u)
    (h : pairKey x y = pairKey u v) : x = u ∧ y = v := by
  induction x generalizing u with
  | nil =>
    cases u with
    | nil =>
      unfold pairKey at h
      simp at h
      exact ⟨rfl, h⟩
    | cons b us =>
      unfold pairKey at h
      simp at h
      obtain ⟨hb, _⟩ := h
      exact absurd (hb ▸ List.mem_cons_self b us) hu
  | cons a xs ih =>
    cases u with
    | nil =>
      unfold pairKey at h
      simp at h
      obtain ⟨hb, _⟩ := h
      exact absurd (hb ▸ List.mem_cons_self a xs) hx
    | cons b us =>
      unfold pairKey at h
      simp only [List.cons_append, List.cons.injEq] at h
      obtain ⟨hab, htail⟩ := h
      have hx' : '_' ∉ xs := fun hmem => hx (List.mem_cons_of_mem _ hmem)
      have hu' : '_' ∉ us := fun hmem => hu (List.mem_cons_of_mem _ hmem)
      obtain ⟨h1, h2⟩ := ih us hx' hu' htail
      exact ⟨by rw [hab, h1], h2⟩

/-- Does candidate `c` cover the unordered segment pair `{x, y}`? -/
def sameSegPair (x y : LC) (c : LC × LC) : Bool :=
  (c.1 == x && c.2 == y) || (c.1 == y && c.2 == x)

theorem sameSegPair_comm (x y : LC) : sameSegPair x y = sameSegPair y x := by
  funext c
  simp [sameSegPair, Bool.or_comm]

theorem sameSegPair_iff (x y : LC) (c : LC × LC) :
    sameSegPair x y c = true ↔ (c.1 = x ∧ c.2 = y) ∨ (c.1 = y ∧ c.2 = x) := by
  simp [sameSegPair]

theorem mem_pdKeyStep (ks : List LC) (c : LC × LC) (k : LC) :
    k ∈ pdKeyStep ks c ↔
      k ∈ ks ∨ (k = pairKey c.1 c.2 ∧ pairKey c.2 c.1 ∉ ks ∧
        headChar c.1 = headChar c.2 ∧ pairKey c.1 c.2 ∉ ks) := by
  unfold pdKeyStep
  by_cases h1 : pairKey c.2 c.1 ∈ ks
  · rw [if_pos h1]
    simp [h1]
  · rw [if_neg h1]
    by_cases h2 : headChar c.1 ≠ headChar c.2
    · rw [if_pos h2]
      simp [h1, h2]
    · rw [if_neg h2]
      by_cases h3 : pairKey c.1 c.2 ∈ ks
      · rw [if_pos h3]
        constructor
        · intro hm
          exact Or.inl hm
        · rintro (hm | ⟨hk, _, _, h3'⟩)
          · exact hm
          · exact absurd h3 h3'
      · rw [if_neg h3]
        simp only [List.mem_append, List.mem_singleton]
        constructor
        · rintro (hm | hk)
          · exact Or.inl hm
          · exact Or.inr ⟨hk, h1, not_ne_iff.mp h2, h3⟩
        · rintro (hm | ⟨hk, _, _, _⟩)
          · exact Or.inl hm
          · exact Or.inr hk

/-- The invariant tying the key accumulator to the processed candidate
prefix: a canonical key is present exactly when the first candidate for
its unordered segment pair had that orientation and equal reflectivity. -/
def pdInv (pre : List (LC × LC)) (ks : List LC) : Prop :=
  ∀ x y : LC, '_' ∉ x → '_' ∉ y →
    (pairKey x y ∈ ks ↔
      (headChar x = headChar y ∧ pre.find? (sameSegPair x y) = some (x, y)))

theorem pdInv_nil : pdInv [] [] := by
  intro x y _ _
  simp

theorem pdInv_step (pre : List (LC × LC)) (ks : List LC) (c : LC × LC)
    (hc1 : '_' ∉ c.1) (hc2 : '_' ∉ c.2) (hinv : pdInv pre ks) :
    pdInv (pre ++ [c]) (pdKeyStep ks c) := by
  obtain ⟨u, v⟩ := c
  simp only at hc1 hc2
  intro x y hx hy
  rw [List.find?_append, mem_pdKeyStep]
  simp only
  cases hfind : pre.find? (sameSegPair x y) with
  | some w =>
    simp only [Option.or_some]
    by_cases hpk : pairKey x y = pairKey u v
    · obtain ⟨rfl, rfl⟩ := pairKey_inj x y u v hx hc1 hpk
      constructor
      · rintro (hm | ⟨_, hvu, hd, huv⟩)
        · exact (hinv x y hx hy).1 hm |>.imp id (by rw [hfind]; exact id)
        · exfalso
          have hwp := List.find?_some hfind
          rcases (sameSegPair_iff x y w).1 hwp with ⟨hw1, hw2⟩ | ⟨hw1, hw2⟩
          · have : w = (x, y) := Prod.ext hw1 hw2
            exact huv ((hinv x y hx hy).2 ⟨hd, by rw [hfind, this]⟩)
          · have : w = (y, x) := Prod.ext hw1 hw2
            have hfind' : pre.find? (sameSegPair y x) = some (y, x) := by
              rw [← sameSegPair_comm, hfind, this]
            exact hvu ((hinv y x hy hx).2 ⟨hd.symm, hfind'⟩)
      · intro hrhs
        have := (hinv x y hx hy).2 ⟨hrhs.1, by rw [hfind]; exact hrhs.2⟩
        exact Or.inl this
    · constructor
      · rintro (hm | ⟨hk, _⟩)
        · exact (hinv x y hx hy).1 hm |>.imp id (by rw [hfind]; exact id)
        · exact absurd hk hpk
      · intro hrhs
        exact Or.inl ((hinv x y hx hy).2 ⟨hrhs.1, by rw [hfind]; exact hrhs.2⟩)
  | none =>
    have hks : pairKey x y ∉ ks := fun hm => by
      have := (hinv x y hx hy).1 hm
      rw [hfind] at this
      cases this.2
    have hksr : pairKey y x ∉ ks := fun hm => by
      have := (hinv y x hy hx).1 hm
      rw [← sameSegPair_comm, hfind] at this
      cases this.2
    simp only [Option.none_or, List.find?_cons, List.find?_nil]
    cases hm : sameSegPair x y (u, v) with
    | false =>
      simp only
      constructor
      · rintro (hmem | ⟨hk, _⟩)
        · exact absurd hmem hks
        · obtain ⟨rfl, rfl⟩ := pairKey_inj x y u v hx hc1 hk
          simp [sameSegPair] at hm
      · rintro ⟨_, h0⟩
        cases h0
    | true =>
      simp only
      rcases (sameSegPair_iff x y (u, v)).1 hm with ⟨hu1, hv1⟩ | ⟨hu1, hv1⟩
      · simp only at hu1 hv1
        subst hu1
        subst hv1
        constructor
        · rintro (hmem | ⟨_, _, hd, _⟩)
          · exact absurd hmem hks
          · exact ⟨hd, rfl⟩
        · rintro ⟨hd, _⟩
          exact Or.inr ⟨rfl, hksr, hd, hks⟩
      · simp only at hu1 hv1
        subst hu1
        subst hv1
        by_cases hvu : v = u
        · subst hvu
          constructor
          · rintro (hmem | ⟨_, _, hd, _⟩)
            · exact absurd hmem hks
            · exact ⟨hd, rfl⟩
          · rintro ⟨hd, _⟩
            exact Or.inr ⟨rfl, hksr, hd, hks⟩
        · constructor
          · rintro (hmem | ⟨hk, _⟩)
            · exact absurd hmem hks
            · obtain ⟨h1, h2⟩ := pairKey_inj v u u v hx hy hk
              exact absurd h1 hvu
          · rintro ⟨_, h0⟩
            simp only [Option.some.injEq, Prod.mk.injEq] at h0
            exact absurd h0.1 (fun hh => hvu hh.symm)

theorem pdInv_foldl (cs : List (LC × LC)) (pre : List (LC × LC)) (ks : List LC)
    (hcs : ∀ c ∈ cs, '_' ∉ c.1 ∧ '_' ∉ c.2) (hinv : pdInv pre ks) :
    pdInv (pre ++ cs) (List.foldl pdKeyStep ks cs) := by
  induction cs generalizing pre ks with
  | nil => simpa using hinv
  | cons c rest ih =>
    have hstep := pdInv_step pre ks c (hcs c (List.mem_cons_self _ _)).1
      (hcs c (List.mem_cons_self _ _)).2 hinv
    have := ih (pre ++ [c]) (pdKeyStep ks c)
      (fun d hd => hcs d (List.mem_cons_of_mem _ hd)) hstep
    simpa [List.append_assoc] using this

/-- Characterization of the final key set, valid when no candidate
segment contains an underscore. -/
theorem fill_maps_pdKey_char (res : FitResults) (st : FillState)
    (h : fill_maps res = some st)
    (hUF : ∀ c ∈ pdCands res, '_' ∉ c.1 ∧ '_' ∉ c.2) (x y : LC)
    (hx : '_' ∉ x) (hy : '_' ∉ y) :
    pairKey x y ∈ keysOfPD st.phase_diffs ↔
      (headChar x = headChar y ∧
        (pdCands res).find? (sameSegPair x y) = some (x, y)) := by
  rw [fill_maps_phase_keys res st h]
  have := pdInv_foldl (pdCands res) [] [] hUF pdInv_nil
  simpa using this x y hx hy

theorem pdCands_noUS (res : FitResults)
    (hUF : ∀ r, r ∈ res.reactionList → ∀ a, a ∈ res.ampList r →
      isBkgd a = false → '_' ∉ segOf a) :
    ∀ c ∈ pdCands res, '_' ∉ c.1 ∧ '_' ∉ c.2 := by
  intro c hc
  unfold pdCands at hc
  rw [List.mem_flatMap] at hc
  obtain ⟨r, hr, hc⟩ := hc
  rw [List.mem_flatMap] at hc
  obtain ⟨a, ha, hc⟩ := hc
  by_cases hb : isBkgd a
  · rw [if_pos hb] at hc
    cases hc
  · rw [if_neg hb] at hc
    unfold innerCands at hc
    rw [List.mem_map] at hc
    obtain ⟨B, hBf, hcB⟩ := hc
    rw [List.mem_filter] at hBf
    obtain ⟨hBmem, hBp⟩ := hBf
    have hBp' : ¬B = a ∧ isBkgd B = false := by simpa using hBp
    have hbB : isBkgd B = false := hBp'.2
    subst hcB
    exact ⟨hUF r hr a ha (by simpa using hb), hUF r hr B hBmem hbB⟩

theorem cand_mem_pdCands (res : FitResults) (r A B : LC)
    (hr : r ∈ res.reactionList) (hA : A ∈ res.ampList r)
    (hB : B ∈ res.ampList r) (hBA : B ≠ A)
    (hbA : isBkgd A = false) (hbB : isBkgd B = false) :
    (segOf A, segOf B) ∈ pdCands res := by
  unfold pdCands
  rw [List.mem_flatMap]
  refine ⟨r, hr, ?_⟩
  rw [List.mem_flatMap]
  refine ⟨A, hA, ?_⟩
  rw [if_neg (by simp [hbA])]
  unfold innerCands
  rw [List.mem_map]
  refine ⟨B, ?_, rfl⟩
  rw [List.mem_filter]
  refine ⟨hB, ?_⟩
  simp [hBA, hbB]

/-- C2 (amended): provided no non-background amplitude's trailing segment
contains an underscore character, then for every pair of distinct
non-background amplitudes `A`, `B` of one reaction with equal reflectivity,
exactly one of the keys `segA_segB` / `segB_segA` is present in the final
phase-difference map — the orientation of the first-encountered candidate
pair for those segments — and (for distinct segments) never both.  (The
underscore proviso is needed: see the counterexample theorem.) -/
theorem phase_diff_pair_unique (res : FitResults) (st : FillState)
    (h : fill_maps res = some st)
    (hUF : ∀ r, r ∈ res.reactionList → ∀ a, a ∈ res.ampList r →
      isBkgd a = false → '_' ∉ segOf a)
    (r A B : LC) (hr : r ∈ res.reactionList) (hA : A ∈ res.ampList r)
    (hB : B ∈ res.ampList r) (hBA : B ≠ A)
    (hbA : isBkgd A = false) (hbB : isBkgd B = false)
    (hrefl : headChar (segOf A) = headChar (segOf B)) :
    ∃ u v, (pdCands res).find? (sameSegPair (segOf A) (segOf B)) = some (u, v) ∧
      ((u = segOf A ∧ v = segOf B) ∨ (u = segOf B ∧ v = segOf A)) ∧
      pairKey u v ∈ keysOfPD st.phase_diffs ∧
      (u ≠ v → pairKey v u ∉ keysOfPD st.phase_diffs) := by
  have hcands := pdCands_noUS res hUF
  have hufA : '_' ∉ segOf A := hUF r hr A hA hbA
  have hufB : '_' ∉ segOf B := hUF r hr B hB hbB
  have hmem := cand_mem_pdCands res r A B hr hA hB hBA hbA hbB
  have hfound : ((pdCands res).find? (sameSegPair (segOf A) (segOf B))).isSome := by
    rw [List.find?_isSome]
    exact ⟨(segOf A, segOf B), hmem, by simp [sameSegPair]⟩
  obtain ⟨w, hw⟩ := Option.isSome_iff_exists.1 hfound
  obtain ⟨u, v⟩ := w
  have hworient' := (sameSegPair_iff (segOf A) (segOf B) (u, v)).1 (List.find?_some hw)
  have hworient : (u = segOf A ∧ v = segOf B) ∨ (u = segOf B ∧ v = segOf A) := by
    simpa using hworient'
  have hufu : '_' ∉ u := by
    rcases hworient with ⟨h1, _⟩ | ⟨h1, _⟩
    · rw [h1]
      exact hufA
    · rw [h1]
      exact hufB
  have hufv : '_' ∉ v := by
    rcases hworient with ⟨_, h2⟩ | ⟨_, h2⟩
    · rw [h2]
      exact hufB
    · rw [h2]
      exact hufA
  have hsp : sameSegPair u v = sameSegPair (segOf A) (segOf B) := by
    rcases hworient with ⟨h1, h2⟩ | ⟨h1, h2⟩
    · rw [h1, h2]
    · rw [h1, h2]
      exact (sameSegPair_comm _ _).symm
  have hsp2 : sameSegPair v u = sameSegPair (segOf A) (segOf B) := by
    rcases hworient with ⟨h1, h2⟩ | ⟨h1, h2⟩
    · rw [h1, h2]
      exact (sameSegPair_comm _ _).symm
    · rw [h1, h2]
  refine ⟨u, v, hw, hworient, ?_, ?_⟩
  · rw [fill_maps_pdKey_char res st h hcands u v hufu hufv]
    constructor
    · rcases hworient with ⟨h1, h2⟩ | ⟨h1, h2⟩
      · rw [h1, h2]
        exact hrefl
      · rw [h1, h2]
        exact hrefl.symm
    · rw [hsp]
      exact hw
  · intro hne hin
    rw [fill_maps_pdKey_char res st h hcands v u hufv hufu] at hin
    rw [hsp2, hw] at hin
    obtain ⟨_, hin2⟩ := hin
    simp only [Option.some.injEq, Prod.mk.injEq] at hin2
    exact hne hin2.1

-- counterexample input for the claim as stated (underscores in segments)

/-- The amplitude list of the counterexample file: trailing segments
containing underscores make distinct segment pairs collide on the same
canonical key. -/
def cexAmps : List LC :=
  [("R::S1::p1p0S_p2p0S").data,
   ("R::S2::p1p0S").data,
   ("R::S3::p2p0S").data,
   ("R::S4::p1p0S_p1p0S").data,
   ("R::S5::p2p0S_p1p0S").data]

/-- The counterexample handle. -/
def resCex : FitResults :=
  { valid := true
    reactionList := [("R").data]
    ampList := fun _ => cexAmps
    parNameList := [] }

/-- The pair refuting C2 as stated. -/
def cexA : LC := ("R::S2::p1p0S").data

/-- Second member of the refuting pair. -/
def cexB : LC := ("R::S5::p2p0S_p1p0S").data

/-- Counterexample to C2 as stated: in the file `resCex`, the amplitudes
`cexA` and `cexB` are distinct, non-background, share a reaction and a
reflectivity, yet BOTH keys `segA_segB` and `segB_segA` are present in the
final phase-difference map (each was registered by a different pair whose
key collides because segments contain underscores). -/
theorem phase_diff_pair_unique_counterexample :
    (fill_maps resCex).isSome = true ∧
    (("R").data) ∈ resCex.reactionList ∧
    cexA ∈ resCex.ampList (("R").data) ∧
    cexB ∈ resCex.ampList (("R").data) ∧
    cexA ≠ cexB ∧ isBkgd cexA = false ∧ isBkgd cexB = false ∧
    headChar (segOf cexA) = headChar (segOf cexB) ∧
    segOf cexA ≠ segOf cexB ∧
    pairKey (segOf cexA) (segOf cexB) ∈
      keysOfPD ((fill_maps resCex).getD initState).phase_diffs ∧
    pairKey (segOf cexB) (segOf cexA) ∈
      keysOfPD ((fill_maps resCex).getD initState).phase_diffs := by
  decide

/-- Witness for the amended C2 on the underscore-free file `resSample`:
the equal-reflectivity pair `sampA`, `sampC`. -/
theorem phase_diff_pair_unique_witness :
    ∃ u v, (pdCands resSample).find? (sameSegPair (segOf sampA) (segOf sampC)) =
        some (u, v) ∧
      ((u = segOf sampA ∧ v = segOf sampC) ∨ (u = segOf sampC ∧ v = segOf sampA)) ∧
      pairKey u v ∈ keysOfPD ((fill_maps resSample).getD initState).phase_diffs ∧
      (u ≠ v → pairKey v u ∉
        keysOfPD ((fill_maps resSample).getD initState).phase_diffs) :=
  phase_diff_pair_unique resSample ((fill_maps resSample).getD initState)
    (by decide) (by decide) (("R").data) sampA sampC (by decide) (by decide)
    (by decide) (by decide) (by decide) (by decide) (by decide)

-- ===== the emission model: std::map iteration order and the CSV row =====

/-- Lexicographic comparison of two strings by character code, the
`std::string` `operator<` that orders `std::map` keys. -/
def lexLe : LC → LC → Bool
  | [], _ => true
  | _ :: _, [] => false
  | a :: as, b :: bs =>
    if a.toNat < b.toNat then true
    else if b.toNat < a.toNat then false
    else lexLe as bs

theorem lexLe_total (a b : LC) : lexLe a b = true ∨ lexLe b a = true := by
  induction a generalizing b with
  | nil => exact Or.inl rfl
  | cons x xs ih =>
    cases b with
    | nil => exact Or.inr rfl
    | cons y ys =>
      by_cases hxy : x.toNat < y.toNat
      · left
        simp [lexLe, hxy]
      · by_cases hyx : y.toNat < x.toNat
        · right
          simp [lexLe, hyx]
        · rcases ih ys with h | h
          · left
            simp [lexLe, hxy, hyx, h]
          · right
            simp [lexLe, hxy, hyx, h]

theorem lexLe_trans (a b c : LC) (hab : lexLe a b = true)
    (hbc : lexLe b c = true) : lexLe a c = true := by
  induction a generalizing b c with
  | nil => rfl
  | cons x xs ih =>
    cases b with
    | nil => exact absurd hab (by simp [lexLe])
    | cons y ys =>
      cases c with
      | nil => exact absurd hbc (by simp [lexLe])
      | cons z zs =>
        simp only [lexLe] at hab hbc ⊢
        have hab' : x.toNat < y.toNat ∨
            (x.toNat = y.toNat ∧ lexLe xs ys = true) := by
          by_cases hxy : x.toNat < y.toNat
          · exact Or.inl hxy
          · rw [if_neg hxy] at hab
            by_cases hyx : y.toNat < x.toNat
            · rw [if_pos hyx] at hab
              cases hab
            · rw [if_neg hyx] at hab
              exact Or.inr ⟨by omega, hab⟩
        have hbc' : y.toNat < z.toNat ∨
            (y.toNat = z.toNat ∧ lexLe ys zs = true) := by
          by_cases hyz : y.toNat < z.toNat
          · exact Or.inl hyz
          · rw [if_neg hyz] at hbc
            by_cases hzy : z.toNat < y.toNat
            · rw [if_pos hzy] at hbc
              cases hbc
            · rw [if_neg hzy] at hbc
              exact Or.inr ⟨by omega, hbc⟩
        rcases hab' with hxy | ⟨hxy, hxs⟩
        · rcases hbc' with hyz | ⟨hyz, _⟩
          · rw [if_pos (by omega)]
          · rw [if_pos (by omega)]
        · rcases hbc' with hyz | ⟨hyz, hys⟩
          · rw [if_pos (by omega)]
          · rw [if_neg (by omega), if_neg (by omega)]
            exact ih ys zs hxs hys

/-- Sorted insertion of a key, the `std::map` insert; iterating the map
then yields ascending key order. -/
def insertSorted (k : LC) : List LC → List LC
  | [] => [k]
  | x :: xs => if lexLe k x then k :: x :: xs else x :: insertSorted k xs

/-- Ascending key order of a `std::map` holding the given keys. -/
def sortKeys (l : List LC) : List LC := l.foldr insertSorted []

theorem insertSorted_perm (k : LC) (l : List LC) :
    (insertSorted k l).Perm (k :: l) := by
  induction l with
  | nil => exact List.Perm.refl _
  | cons x xs ih =>
    unfold insertSorted
    by_cases h : lexLe k x
    · rw [if_pos h]
    · rw [if_neg h]
      exact List.Perm.trans (List.Perm.cons x ih) (List.Perm.swap k x xs)

theorem sortKeys_perm (l : List LC) : (sortKeys l).Perm l := by
  induction l with
  | nil => exact List.Perm.refl _
  | cons x xs ih =>
    exact List.Perm.trans (insertSorted_perm x (sortKeys xs)) (List.Perm.cons x ih)

theorem insertSorted_pairwise (k : LC) (l : List LC)
    (h : List.Pairwise (fun a b => lexLe a b = true) l) :
    List.Pairwise (fun a b => lexLe a b = true) (insertSorted k l) := by
  induction l with
  | nil => simp [insertSorted]
  | cons x xs ih =>
    unfold insertSorted
    by_cases hle : lexLe k x
    · rw [if_pos hle]
      refine List.Pairwise.cons ?_ h
      intro b hb
      rcases List.mem_cons.mp hb with rfl | hb'
      · exact hle
      · exact lexLe_trans k x b hle (List.rel_of_pairwise_cons h hb')
    · rw [if_neg hle]
      have hxk : lexLe x k = true := by
        rcases lexLe_total k x with h' | h'
        · exact absurd h' hle
        · exact h'
      refine List.Pairwise.cons ?_ (ih (List.Pairwise.of_cons h))
      intro b hb
      have := (insertSorted_perm k xs).mem_iff.1 hb
      rcases List.mem_cons.mp this with rfl | hb'
      · exact hxk
      · exact List.rel_of_pairwise_cons h hb'

theorem sortKeys_pairwise (l : List LC) :
    List.Pairwise (fun a b => lexLe a b = true) (sortKeys l) := by
  induction l with
  | nil => exact List.Pairwise.nil
  | cons x xs ih => exact insertSorted_pairwise x (sortKeys xs) ih

theorem sortKeys_length (l : List LC) : (sortKeys l).length = l.length :=
  (sortKeys_perm l).length_eq

/-- The seven fixed standard-result keys, listed in the ascending order in
which the `std::map` `standard_results` iterates them. -/
def standardKeys : List LC :=
  [("detected_events").data, ("detected_events_err").data,
   ("eMatrixStatus").data, ("generated_events").data,
   ("generated_events_err").data, ("lastMinuitCommandStatus").data,
   ("likelihood").data]

/-- The name of a coherent-sum tag, the key of the outer
`coherent_sums` map. -/
def sumTagName : SumTag → LC
  | .eJPmL => ("eJPmL").data
  | .tJPmL => ("JPmL").data
  | .eJPL => ("eJPL").data
  | .tJPL => ("JPL").data
  | .eJP => ("eJP").data
  | .tJP => ("JP").data
  | .tE => ("e").data

/-- The order in which the loops of the source iterate the outer
`coherent_sums` map: ascending order of the seven fixed tag-name strings
(capital letters sort before lowercase). -/
def emitTagOrder : List SumTag :=
  [.tJP, .tJPL, .tJPmL, .tE, .eJP, .eJPL, .eJPmL]

/-- Sanity check: `emitTagOrder` is the ascending-key iteration order of
the map initialized from the source's `coherent_sum_types` list. -/
theorem emitTagOrder_is_sorted :
    emitTagOrder.map sumTagName =
      sortKeys [("eJPmL").data, ("JPmL").data, ("eJPL").data, ("JPL").data,
        ("eJP").data, ("JP").data, ("e").data] := by
  decide

/-- One numeric cell of the emitted CSV row, tagged by the query to the
external store (or map entry) whose result it prints. -/
inductive Cell
  | standard (name : LC)
  | parVal (name : LC)
  | parErr (name : LC)
  | prodRe (key : LC)
  | prodIm (key : LC)
  | intensityVal (amps : List LC)
  | intensityErr (amps : List LC)
  | phaseVal (a b : LC)
  | phaseErr (a b : LC)
deriving DecidableEq

/-- The value pair stored in the phase-difference map under a key. -/
def pdPair (m : PDMap) (k : LC) : LC × LC := (findPD m k).getD ([], [])

/-- The sequence of numeric cells of one emitted CSV row, in the order the
source writes them: standard results, non-amplitude parameters,
production coefficients, the seven coherent-sum maps (each queried for an
intensity value and error), and the phase differences (each queried for a
value and error).  Each map is iterated in ascending key order. -/
def rowCells (res : FitResults) (st : FillState) : List Cell :=
  standardKeys.map Cell.standard
  ++ (res.parNameList.filter (fun n => !containsSub sepChars n)).flatMap
      (fun n => [Cell.parVal n, Cell.parErr n])
  ++ (sortKeys st.prodKeys).flatMap (fun k => [Cell.prodRe k, Cell.prodIm k])
  ++ emitTagOrder.flatMap (fun t => (sortKeys (keysOfG (st.sums t))).flatMap
      (fun k => [Cell.intensityVal (lookupGroup (st.sums t) k),
                 Cell.intensityErr (lookupGroup (st.sums t) k)]))
  ++ (sortKeys (keysOfPD st.phase_diffs)).flatMap
      (fun k => [Cell.phaseVal (pdPair st.phase_diffs k).1 (pdPair st.phase_diffs k).2,
                 Cell.phaseErr (pdPair st.phase_diffs k).1 (pdPair st.phase_diffs k).2])

/-- The coherent-sum column keys of the emitted row, in emission order. -/
def sumColumnKeys (st : FillState) : List LC :=
  emitTagOrder.flatMap (fun t => sortKeys (keysOfG (st.sums t)))

/-- The group keys in first-seen (insertion) order, per tag. -/
def firstSeenSumKeys (st : FillState) : List LC :=
  emitTagOrder.flatMap (fun t => keysOfG (st.sums t))

/-- The amplitude-list arguments of the `results.intensity` calls made
while emitting a row, in call order. -/
def intensityArgs (cells : List Cell) : List (List LC) :=
  cells.filterMap (fun c =>
    match c with
    | Cell.intensityVal v => some v
    | Cell.intensityErr v => some v
    | _ => none)

/-- The name-pair arguments of the `results.phaseDiff` calls made while
emitting a row, in call order. -/
def phaseArgs (cells : List Cell) : List (LC × LC) :=
  cells.filterMap (fun c =>
    match c with
    | Cell.phaseVal a b => some (a, b)
    | Cell.phaseErr a b => some (a, b)
    | _ => none)

/-- Total number of coherent-sum groups across the seven tags. -/
def numGroups (st : FillState) : Nat :=
  (emitTagOrder.map (fun t => (keysOfG (st.sums t)).length)).sum

/-- Number of registered phase-difference pairs. -/
def numPhasePairs (st : FillState) : Nat := (keysOfPD st.phase_diffs).length

-- ===== claims C5 and C6: column order and query counts =====

theorem flatMap_perm_of_perm (ts : List SumTag) (f g : SumTag → List LC)
    (h : ∀ t, (f t).Perm (g t)) : (ts.flatMap f).Perm (ts.flatMap g) := by
  induction ts with
  | nil => exact List.Perm.refl _
  | cons t rest ih =>
    rw [List.flatMap_cons, List.flatMap_cons]
    exact (h t).append ih

/-- C5 (amended): the emitted coherent-sum column order is each tag's keys
in ascending lexicographic order (the `std::map` iteration order) — a
deterministic permutation of the first-seen insertion order, but not that
order itself (see the counterexample theorem). -/
theorem column_order_sorted (st : FillState) :
    (∀ t, List.Pairwise (fun a b => lexLe a b = true)
      (sortKeys (keysOfG (st.sums t)))) ∧
    (sumColumnKeys st).Perm (firstSeenSumKeys st) := by
  constructor
  · intro t
    exact sortKeys_pairwise _
  · exact flatMap_perm_of_perm emitTagOrder _ _
      (fun t => sortKeys_perm (keysOfG (st.sums t)))

/-- Counterexample to C5 as stated: on the concrete file `resSample` the
emitted column order (ascending key order of the `std::map`) differs from
the first-seen insertion order of the group keys. -/
theorem column_order_counterexample :
    (fill_maps resSample).isSome = true ∧
    sumColumnKeys ((fill_maps resSample).getD initState) ≠
      firstSeenSumKeys ((fill_maps resSample).getD initState) := by
  decide

-- query-count accounting for C6

theorem intensityArgs_append (c1 c2 : List Cell) :
    intensityArgs (c1 ++ c2) = intensityArgs c1 ++ intensityArgs c2 := by
  unfold intensityArgs
  rw [List.filterMap_append]

theorem phaseArgs_append (c1 c2 : List Cell) :
    phaseArgs (c1 ++ c2) = phaseArgs c1 ++ phaseArgs c2 := by
  unfold phaseArgs
  rw [List.filterMap_append]

theorem args_standard (ks : List LC) :
    intensityArgs (ks.map Cell.standard) = [] ∧
    phaseArgs (ks.map Cell.standard) = [] := by
  induction ks with
  | nil => exact ⟨rfl, rfl⟩
  | cons k rest ih =>
    refine ⟨?_, ?_⟩
    · simp [intensityArgs, List.filterMap_cons, ih.1]
    · simp [phaseArgs, List.filterMap_cons, ih.2]

theorem args_par (ns : List LC) :
    intensityArgs (ns.flatMap (fun n => [Cell.parVal n, Cell.parErr n])) = [] ∧
    phaseArgs (ns.flatMap (fun n => [Cell.parVal n, Cell.parErr n])) = [] := by
  induction ns with
  | nil => exact ⟨rfl, rfl⟩
  | cons n rest ih =>
    refine ⟨?_, ?_⟩
    · simpa [intensityArgs, List.filterMap_cons] using ih.1
    · simpa [phaseArgs, List.filterMap_cons] using ih.2

theorem args_prod (ks : List LC) :
    intensityArgs (ks.flatMap (fun k => [Cell.prodRe k, Cell.prodIm k])) = [] ∧
    phaseArgs (ks.flatMap (fun k => [Cell.prodRe k, Cell.prodIm k])) = [] := by
  induction ks with
  | nil => exact ⟨rfl, rfl⟩
  | cons k rest ih =>
    refine ⟨?_, ?_⟩
    · simpa [intensityArgs, List.filterMap_cons] using ih.1
    · simpa [phaseArgs, List.filterMap_cons] using ih.2

theorem args_intensity_tag (g : Groups) (ks : List LC) :
    (intensityArgs (ks.flatMap (fun k => [Cell.intensityVal (lookupGroup g k),
      Cell.intensityErr (lookupGroup g k)]))).length = 2 * ks.length ∧
    phaseArgs (ks.flatMap (fun k => [Cell.intensityVal (lookupGroup g k),
      Cell.intensityErr (lookupGroup g k)])) = [] := by
  induction ks with
  | nil => exact ⟨rfl, rfl⟩
  | cons k rest ih =>
    refine ⟨?_, ?_⟩
    · have := ih.1
      simp [intensityArgs, List.filterMap_cons] at this ⊢
      omega
    · simpa [phaseArgs, List.filterMap_cons] using ih.2

theorem args_intensity_section (st : FillState) (ts : List SumTag) :
    (intensityArgs (ts.flatMap (fun t => (sortKeys (keysOfG (st.sums t))).flatMap
      (fun k => [Cell.intensityVal (lookupGroup (st.sums t) k),
                 Cell.intensityErr (lookupGroup (st.sums t) k)])))).length =
      2 * (ts.map (fun t => (keysOfG (st.sums t)).length)).sum ∧
    phaseArgs (ts.flatMap (fun t => (sortKeys (keysOfG (st.sums t))).flatMap
      (fun k => [Cell.intensityVal (lookupGroup (st.sums t) k),
                 Cell.intensityErr (lookupGroup (st.sums t) k)]))) = [] := by
  induction ts with
  | nil => exact ⟨rfl, rfl⟩
  | cons t rest ih =>
    constructor
    · rw [List.flatMap_cons, intensityArgs_append, List.length_append, ih.1,
        List.map_cons, List.sum_cons, (args_intensity_tag (st.sums t) _).1,
        sortKeys_length]
      ring
    · rw [List.flatMap_cons, phaseArgs_append, ih.2,
        (args_intensity_tag (st.sums t) _).2]
      rfl

theorem args_phase_section (m : PDMap) (ks : List LC) :
    intensityArgs (ks.flatMap (fun k => [Cell.phaseVal (pdPair m k).1 (pdPair m k).2,
      Cell.phaseErr (pdPair m k).1 (pdPair m k).2])) = [] ∧
    (phaseArgs (ks.flatMap (fun k => [Cell.phaseVal (pdPair m k).1 (pdPair m k).2,
      Cell.phaseErr (pdPair m k).1 (pdPair m k).2]))).length = 2 * ks.length := by
  induction ks with
  | nil => exact ⟨rfl, rfl⟩
  | cons k rest ih =>
    refine ⟨?_, ?_⟩
    · simpa [intensityArgs, List.filterMap_cons] using ih.1
    · have := ih.2
      simp [phaseArgs, List.filterMap_cons] at this ⊢
      omega

/-- C6 (amended): emitting a row queries the external handle exactly TWICE
per coherent-sum group (the source calls `results.intensity(...)` once for
`.first` and once for `.second`) and exactly twice per phase-difference
pair, never once. -/
theorem query_counts (res : FitResults) (st : FillState) :
    (intensityArgs (rowCells res st)).length = 2 * numGroups st ∧
    (phaseArgs (rowCells res st)).length = 2 * numPhasePairs st := by
  unfold rowCells numGroups numPhasePairs
  constructor
  · rw [intensityArgs_append, intensityArgs_append, intensityArgs_append,
      intensityArgs_append]
    rw [(args_standard _).1, (args_par _).1, (args_prod _).1,
      (args_phase_section st.phase_diffs _).1]
    simp only [List.length_append, List.length_nil]
    rw [(args_intensity_section st emitTagOrder).1]
    omega
  · rw [phaseArgs_append, phaseArgs_append, phaseArgs_append, phaseArgs_append]
    rw [(args_standard _).2, (args_par _).2, (args_prod _).2,
      (args_intensity_section st emitTagOrder).2]
    simp only [List.length_append, List.length_nil]
    rw [(args_phase_section st.phase_diffs _).2, sortKeys_length]
    omega

/-- A concrete handle with one equal-reflectivity amplitude pair. -/
def resPair : FitResults :=
  { valid := true
    reactionList := [("R").data]
    ampList := fun _ => [sampA, sampC]
    parNameList := [] }

/-- C6 counterexample: on the file `resPair` the row emission makes twice
as many external queries as there are groups and pairs — not one query
per group and per pair as claimed. -/
theorem query_counts_counterexample :
    (fill_maps resPair).isSome = true ∧
    numGroups ((fill_maps resPair).getD initState) = 11 ∧
    (intensityArgs (rowCells resPair ((fill_maps resPair).getD initState))).length
      = 22 ∧
    numPhasePairs ((fill_maps resPair).getD initState) = 1 ∧
    (phaseArgs (rowCells resPair ((fill_maps resPair).getD initState))).length
      = 2 := by
  decide

-- ===== claim C8: the batch driver =====

/-- The header cells (column names) derived from one file's maps, in the
order the source writes them in the first-file branch. -/
def headerNames (res : FitResults) (st : FillState) : List LC :=
  standardKeys
  ++ (res.parNameList.filter (fun n => !containsSub sepChars n)).flatMap
      (fun n => [n, n ++ ("_err").data])
  ++ (sortKeys st.prodKeys).flatMap
      (fun k => [k ++ ("_re").data, k ++ ("_im").data])
  ++ emitTagOrder.flatMap (fun t => (sortKeys (keysOfG (st.sums t))).flatMap
      (fun k => [k, k ++ ("_err").data]))
  ++ (sortKeys (keysOfPD st.phase_diffs)).flatMap
      (fun k => [k, k ++ ("_err").data])

/-- One line written to the CSV stream. -/
inductive OutLine
  | headerLine (names : List LC)
  | rowLine (cells : List Cell)
deriving DecidableEq

/-- The per-file loop of `extract_fit_results`: an invalid handle is
logged and skipped (`continue`), otherwise the maps are cleared and
refilled, the header is written when nothing has been written yet
(`csv_file.tellp() == 0`), and the row is appended.  `none` models an
uncaught exception escaping `fill_maps`. -/
def runFiles : List FitResults → List OutLine → Option (List OutLine)
  | [], out => some out
  | f :: rest, out =>
    if f.valid = false then runFiles rest out
    else
      match fill_maps f with
      | none => none
      | some st =>
        let out1 := if out = [] then out ++ [OutLine.headerLine (headerNames f st)]
          else out
        runFiles rest (out1 ++ [OutLine.rowLine (rowCells f st)])

/-- `extract_fit_results` from the source, restricted to the emitted
line structure. -/
def extract_fit_results (files : List FitResults) : Option (List OutLine) :=
  runFiles files []

/-- The row a file contributes. -/
def rowOfFile (f : FitResults) : OutLine :=
  OutLine.rowLine (rowCells f ((fill_maps f).getD initState))

/-- Modelled from the spec: the output the Batch Driver contract predicts —
one row per valid file in order, preceded by a header derived from the
first valid file only, and nothing for invalid files. -/
def specBatchOutput : List FitResults → List OutLine
  | [] => []
  | f :: fs =>
    OutLine.headerLine (headerNames f ((fill_maps f).getD initState)) ::
      rowOfFile f :: fs.map rowOfFile

theorem runFiles_nonempty (files : List FitResults) (out : List OutLine)
    (hne : out ≠ [])
    (hfills : ∀ f ∈ files, f.valid = true → (fill_maps f).isSome) :
    runFiles files out =
      some (out ++ (files.filter (fun f => f.valid)).map rowOfFile) := by
  induction files generalizing out with
  | nil => simp [runFiles]
  | cons f rest ih =>
    unfold runFiles
    by_cases hv : f.valid = false
    · rw [if_pos hv]
      rw [List.filter_cons_of_neg (by simp [hv])]
      exact ih out hne (fun g hg => hfills g (List.mem_cons_of_mem _ hg))
    · rw [if_neg hv]
      have hvt : f.valid = true := by
        cases hfv : f.valid
        · exact absurd hfv hv
        · rfl
      obtain ⟨st, hst⟩ := Option.isSome_iff_exists.1
        (hfills f (List.mem_cons_self _ _) hvt)
      simp only [hst]
      rw [if_neg hne]
      rw [ih (out ++ [OutLine.rowLine (rowCells f st)]) (by simp)
        (fun g hg => hfills g (List.mem_cons_of_mem _ hg))]
      rw [List.filter_cons_of_pos (by simp [hvt])]
      rw [List.map_cons]
      have hrow : rowOfFile f = OutLine.rowLine (rowCells f st) := by
        unfold rowOfFile
        rw [hst]
        rfl
      rw [hrow]
      simp

/-- C8: a file whose handle fails validation contributes no output line at
all (no row, no header), the batch continues with the remaining files, and
the header is derived exactly from the first valid file: the whole batch
output is the spec-predicted output of the valid files only. -/
theorem batch_skips_invalid (files : List FitResults)
    (hfills : ∀ f ∈ files, f.valid = true → (fill_maps f).isSome) :
    extract_fit_results files =
      some (specBatchOutput (files.filter (fun f => f.valid))) := by
  unfold extract_fit_results
  induction files with
  | nil => rfl
  | cons f rest ih =>
    unfold runFiles
    by_cases hv : f.valid = false
    · rw [if_pos hv]
      rw [List.filter_cons_of_neg (by simp [hv])]
      exact ih (fun g hg => hfills g (List.mem_cons_of_mem _ hg))
    · rw [if_neg hv]
      have hvt : f.valid = true := by
        cases hfv : f.valid
        · exact absurd hfv hv
        · rfl
      obtain ⟨st, hst⟩ := Option.isSome_iff_exists.1
        (hfills f (List.mem_cons_self _ _) hvt)
      simp only [hst]
      simp only [if_true, List.nil_append]
      rw [runFiles_nonempty rest _ (by simp)
        (fun g hg => hfills g (List.mem_cons_of_mem _ hg))]
      rw [List.filter_cons_of_pos (by simp [hvt])]
      have hrow : rowOfFile f = OutLine.rowLine (rowCells f st) := by
        unfold rowOfFile
        rw [hst]
        rfl
      have hhead : headerNames f ((fill_maps f).getD initState) =
          headerNames f st := by
        rw [hst]
        rfl
      simp only [specBatchOutput]
      rw [hrow, hhead]
      simp

/-- An invalid fit-results handle. -/
def resInvalid : FitResults :=
  { valid := false
    reactionList := [("R").data]
    ampList := fun _ => [sampA]
    parNameList := [] }

/-- Witness for C8: a batch of an invalid file followed by a valid one
produces exactly the header of the valid file and its single row —
nothing from the invalid file. -/
theorem batch_skips_invalid_witness :
    extract_fit_results [resInvalid, resSample] =
      some (specBatchOutput ([resInvalid, resSample].filter (fun f => f.valid))) :=
  batch_skips_invalid [resInvalid, resSample] (by decide)

end ExtractFitResults
